import Mathlib

/-!
A verification development for `filesort` (src/filesort/filesort.go), an
external merge sort over newline-delimited text.

The shallow embedding below models:
  * byte streams as `List Nat` (one `Nat` per byte, `10` is the newline);
  * `bufio.Reader.ReadString('\n')` as `readString` over a byte list, and
    `Rdr` wraps a byte list together with an end-of-stream error flag so that
    read errors (as opposed to `io.EOF`) can be expressed;
  * Go string comparison `<` on lines as `lineLt` (byte-wise lexicographic);
  * `readLines`, `split`/`writeChunk`, `source`/`sourceSet` (`pop`, `popMin`,
    `newSourceSet`), `mergeSimple`, `strSliceSplit`, `mergeSimpleFiles`,
    `merge` and `sortLines` as the correspondingly named Lean functions.

Files are modelled by their byte contents; a chunk file written by
`writeChunk lines` has contents `lines.join`.  Go's unbounded loops
(`merge`'s recursion can genuinely diverge for `limit = 1`) are modelled
with an explicit fuel parameter where needed.
-/

namespace Filesort

/-- A byte.  Go reads the input byte-wise; we use `Nat` (only values < 256
occur in real streams, but nothing below depends on that bound). -/
abbrev Byte := Nat

/-- The newline byte used as the line delimiter in `ReadString('\n')`. -/
def nl : Byte := 10

/-- A line of text: a list of bytes (Go `string`). -/
abbrev Line := List Byte

/-- Go string comparison `s < t` (used by `popMin` and by `sort.Strings`):
byte-wise lexicographic comparison, a strict prefix is smaller. -/
def lineLt : Line → Line → Bool
  | [], [] => false
  | [], _ :: _ => true
  | _ :: _, [] => false
  | a :: as, b :: bs => if a < b then true else if b < a then false else lineLt as bs

theorem lineLt_irrefl (a : Line) : lineLt a a = false := by
  induction a with
  | nil => rfl
  | cons x xs ih => simp [lineLt, ih]

theorem lineLt_trichotomy (a b : Line) :
    lineLt a b = true ∨ lineLt b a = true ∨ a = b := by
  induction a generalizing b with
  | nil => cases b <;> simp [lineLt]
  | cons x xs ih =>
    cases b with
    | nil => simp [lineLt]
    | cons y ys =>
      rcases Nat.lt_trichotomy x y with h | h | h
      · left; simp [lineLt, h]
      · subst h
        rcases ih ys with h' | h' | h'
        · left; simp [lineLt, h']
        · right; left; simp [lineLt, h']
        · right; right; simp [h']
      · right; left; simp [lineLt, h]

theorem lineLt_asymm {a b : Line} (h : lineLt a b = true) : lineLt b a = false := by
  induction a generalizing b with
  | nil =>
    cases b with
    | nil => simp [lineLt] at h
    | cons y ys => simp [lineLt]
  | cons x xs ih =>
    cases b with
    | nil => simp [lineLt] at h
    | cons y ys =>
      rcases Nat.lt_trichotomy x y with hxy | hxy | hxy
      · simp [lineLt, hxy, Nat.not_lt.mpr (Nat.le_of_lt hxy)]
      · subst hxy
        simp only [lineLt, lt_irrefl, if_false] at h ⊢
        exact ih h
      · simp [lineLt, hxy, Nat.not_lt.mpr (Nat.le_of_lt hxy)] at h

theorem lineLt_trans {a b c : Line} (h₁ : lineLt a b = true) (h₂ : lineLt b c = true) :
    lineLt a c = true := by
  induction a generalizing b c with
  | nil =>
    cases c with
    | nil =>
      cases b with
      | nil => exact h₁
      | cons y ys => simp [lineLt] at h₂
    | cons z zs => simp [lineLt]
  | cons x xs ih =>
    cases b with
    | nil => simp [lineLt] at h₁
    | cons y ys =>
      cases c with
      | nil => simp [lineLt] at h₂
      | cons z zs =>
        rcases Nat.lt_trichotomy x y with hxy | hxy | hxy
        · rcases Nat.lt_trichotomy y z with hyz | hyz | hyz
          · simp [lineLt, Nat.lt_trans hxy hyz]
          · subst hyz; simp [lineLt, hxy]
          · simp [lineLt, hyz, Nat.not_lt.mpr (Nat.le_of_lt hyz)] at h₂
        · subst hxy
          simp only [lineLt, lt_irrefl, if_false] at h₁
          rcases Nat.lt_trichotomy x z with hyz | hyz | hyz
          · simp [lineLt, hyz]
          · subst hyz
            simp only [lineLt, lt_irrefl, if_false] at h₂ ⊢
            exact ih h₁ h₂
          · simp [lineLt, hyz, Nat.not_lt.mpr (Nat.le_of_lt hyz)] at h₂
        · simp [lineLt, hxy, Nat.not_lt.mpr (Nat.le_of_lt hxy)] at h₁

theorem lineLt_connex {a b : Line} (h₁ : lineLt a b = false) (h₂ : lineLt b a = false) :
    a = b := by
  rcases lineLt_trichotomy a b with h | h | h
  · rw [h] at h₁; cases h₁
  · rw [h] at h₂; cases h₂
  · exact h

/-- The non-strict order `a ≤ b` on lines (negation of Go's `b < a`),
the order in which `sort.Strings` and the merge arrange lines. -/
def LeL (a b : Line) : Prop := lineLt b a = false

instance : DecidableRel LeL := fun a b => by unfold LeL; infer_instance

instance : IsTotal Line LeL := by
  constructor
  intro a b
  rcases lineLt_trichotomy a b with h | h | h
  · exact Or.inl (lineLt_asymm h)
  · exact Or.inr (lineLt_asymm h)
  · subst h; exact Or.inl (lineLt_irrefl a)

instance : IsTrans Line LeL := by
  constructor
  intro a b c h₁ h₂
  unfold LeL at *
  by_contra h
  have h' : lineLt c a = true := by
    cases hca : lineLt c a with
    | false => exact absurd hca h
    | true => rfl
  rcases lineLt_trichotomy a b with hab | hab | hab
  · have hcb := lineLt_trans h' hab
    rw [hcb] at h₂; cases h₂
  · rw [hab] at h₁; cases h₁
  · subst hab
    rw [h'] at h₂; cases h₂

instance : IsAntisymm Line LeL := by
  constructor
  intro a b h₁ h₂
  exact lineLt_connex h₂ h₁

/-- Models `bufio.Reader.ReadString('\n')` on an (error-free) byte stream: returns the
bytes up to and including the first newline, the remaining stream, and whether
the delimiter was found (`false` models the `io.EOF` return, in which case the
accumulated bytes contain no newline). -/
def readString : List Byte → Line × List Byte × Bool
  | [] => ([], [], false)
  | b :: bs =>
    if b = nl then ([b], bs, true)
    else
      match readString bs with
      | (l, rest, found) => (b :: l, rest, found)

theorem readString_append (s : List Byte) :
    (readString s).1 ++ (readString s).2.1 = s := by
  induction s with
  | nil => rfl
  | cons b bs ih =>
    by_cases h : b = nl
    · simp [readString, h]
    · simp only [readString, if_neg h]
      cases hr : readString bs with
      | mk l rest =>
        simp only
        rw [hr] at ih
        simpa using congrArg (b :: ·) ih

theorem readString_found (s : List Byte) :
    (readString s).2.2 = true →
      ∃ m, (readString s).1 = m ++ [nl] ∧ nl ∉ m := by
  induction s with
  | nil => intro h; cases h
  | cons b bs ih =>
    by_cases h : b = nl
    · intro _
      exact ⟨[], by simp [readString, h], by simp⟩
    · simp only [readString, if_neg h]
      cases hr : readString bs with
      | mk l rest =>
        simp only
        intro hf
        rw [hr] at ih
        obtain ⟨m, hm, hmn⟩ := ih hf
        simp only at hm
        refine ⟨b :: m, by simp [hm], ?_⟩
        simp only [List.mem_cons, not_or]
        exact ⟨fun hh => h hh.symm, hmn⟩

theorem readString_not_found (s : List Byte) :
    (readString s).2.2 = false → (readString s).2.1 = [] ∧ nl ∉ (readString s).1 := by
  induction s with
  | nil => intro _; exact ⟨rfl, by simp [readString]⟩
  | cons b bs ih =>
    by_cases h : b = nl
    · simp [readString, h]
    · simp only [readString, if_neg h]
      cases hr : readString bs with
      | mk l rest =>
        simp only
        intro hf
        rw [hr] at ih
        obtain ⟨h1, h2⟩ := ih hf
        refine ⟨h1, ?_⟩
        simp only [List.mem_cons, not_or]
        exact ⟨fun hh => h hh.symm, h2⟩

/-- A line as written to chunk/merge files: nonempty, ends with exactly one
newline, and contains no interior newline. -/
def GoodLine (l : Line) : Prop := ∃ m, l = m ++ [nl] ∧ nl ∉ m

theorem readString_good {l : Line} (hl : GoodLine l) (rest : List Byte) :
    readString (l ++ rest) = (l, rest, true) := by
  obtain ⟨m, hm, hmn⟩ := hl
  subst hm
  induction m with
  | nil => simp [readString, nl]
  | cons b bs ih =>
    have hb : b ≠ nl := fun h => hmn (h ▸ List.mem_cons_self b bs)
    have hbs : nl ∉ bs := fun h => hmn (List.mem_cons_of_mem b h)
    simp only [List.cons_append, readString, if_neg hb, List.append_eq]
    rw [ih hbs]

theorem readString_no_nl {s : List Byte} (h : nl ∉ s) :
    readString s = (s, [], false) := by
  induction s with
  | nil => rfl
  | cons b bs ih =>
    have hb : b ≠ nl := fun hh => h (hh ▸ List.mem_cons_self b bs)
    have hbs : nl ∉ bs := fun hh => h (List.mem_cons_of_mem b hh)
    simp [readString, hb, ih hbs]

theorem readString_len_lt (s : List Byte) (h : (readString s).1 ≠ []) :
    (readString s).2.1.length < s.length := by
  have h1 := readString_append s
  have h2 : (readString s).1.length + (readString s).2.1.length = s.length := by
    rw [← List.length_append, h1]
  have h3 : 0 < (readString s).1.length := List.length_pos.mpr h
  omega

/-- The sequence of lines a consumer of the stream sees if it also normalizes a
final unterminated fragment by appending a newline (the behavior of
`readLines`): the specification-level "lines of the input". -/
def allLines (s : List Byte) : List Line :=
  match hr : readString s with
  | (l, rest, true) => l :: allLines rest
  | (l, _, false) => if l = [] then [] else [l ++ [nl]]
termination_by s.length
decreasing_by
  have h : (readString s).1 ≠ [] := by
    rw [hr]
    obtain ⟨m, hm, _⟩ := readString_found s (by rw [hr])
    rw [hr] at hm
    simp only at hm
    simp [hm]
  have := readString_len_lt s h
  rw [hr] at this
  exact this

/-- The sequence of newline-terminated lines of a stream, ignoring any final
unterminated fragment (the lines a `source` yields before `pop` reports
`io.EOF` and `popMin` drops the source). -/
def streamLines (s : List Byte) : List Line :=
  match hr : readString s with
  | (l, rest, true) => l :: streamLines rest
  | (_, _, false) => []
termination_by s.length
decreasing_by
  have h : (readString s).1 ≠ [] := by
    rw [hr]
    obtain ⟨m, hm, _⟩ := readString_found s (by rw [hr])
    rw [hr] at hm
    simp only at hm
    simp [hm]
  have := readString_len_lt s h
  rw [hr] at this
  exact this

theorem allLines_found {s : List Byte} {l : Line} {rest : List Byte}
    (h : readString s = (l, rest, true)) : allLines s = l :: allLines rest := by
  rw [allLines.eq_def, h]

theorem allLines_not_found {s : List Byte} {l : Line} {rest : List Byte}
    (h : readString s = (l, rest, false)) :
    allLines s = if l = [] then [] else [l ++ [nl]] := by
  rw [allLines.eq_def, h]

theorem streamLines_found {s : List Byte} {l : Line} {rest : List Byte}
    (h : readString s = (l, rest, true)) : streamLines s = l :: streamLines rest := by
  rw [streamLines.eq_def, h]

theorem streamLines_not_found {s : List Byte} {l : Line} {rest : List Byte}
    (h : readString s = (l, rest, false)) : streamLines s = [] := by
  rw [streamLines.eq_def, h]

theorem allLines_nil : allLines [] = [] := by
  rw [allLines_not_found (s := []) rfl]
  simp

theorem streamLines_nil : streamLines [] = [] :=
  streamLines_not_found (s := []) rfl

theorem mem_of_getLast?_eq {α : Type _} {l : List α} {x : α} (h : l.getLast? = some x) :
    x ∈ l := by
  obtain ⟨hne, hx⟩ := List.mem_getLast?_eq_getLast (Option.mem_def.mpr h)
  exact hx ▸ List.getLast_mem hne

theorem readString_found_ne {s : List Byte} (h : (readString s).2.2 = true) :
    (readString s).1 ≠ [] := by
  obtain ⟨m, hm, _⟩ := readString_found s h
  simp [hm]

theorem allLines_good (s : List Byte) : ∀ l ∈ allLines s, GoodLine l := by
  generalize hn : s.length = n
  induction n using Nat.strong_induction_on generalizing s with
  | _ n ih =>
    cases hr : readString s with
    | mk l rp =>
      cases rp with
      | mk rest found =>
        cases found with
        | false =>
          rw [allLines_not_found hr]
          intro x hx
          by_cases hl : l = []
          · rw [if_pos hl] at hx; cases hx
          · rw [if_neg hl] at hx
            rcases List.mem_singleton.mp hx with h
            subst h
            have := readString_not_found s (by rw [hr])
            rw [hr] at this
            exact ⟨l, rfl, this.2⟩
        | true =>
          rw [allLines_found hr]
          intro x hx
          rcases List.mem_cons.mp hx with h | h
          · subst h
            have := readString_found s (by rw [hr])
            rw [hr] at this
            exact this
          · have hlt : rest.length < n := by
              have := readString_len_lt s (readString_found_ne (by rw [hr]))
              rw [hr] at this
              simp only at this
              omega
            exact ih rest.length hlt rest rfl x h

/-- A `GoodLine`-terminated stream splits exactly into its lines. -/
theorem streamLines_flatten {ls : List Line} (h : ∀ l ∈ ls, GoodLine l) :
    streamLines ls.flatten = ls := by
  induction ls with
  | nil => exact @streamLines_not_found [] [] [] rfl
  | cons l rest ih =>
    have hl := h l (List.mem_cons_self l rest)
    rw [List.flatten_cons, streamLines_found (readString_good hl rest.flatten)]
    rw [ih fun x hx => h x (List.mem_cons_of_mem l hx)]

theorem allLines_flatten {ls : List Line} (h : ∀ l ∈ ls, GoodLine l) :
    allLines ls.flatten = ls := by
  induction ls with
  | nil =>
    have h0 : allLines ([] : List Byte) = if ([] : Line) = [] then [] else [([] : Line) ++ [nl]] :=
      allLines_not_found (s := []) rfl
    simpa using h0
  | cons l rest ih =>
    have hl := h l (List.mem_cons_self l rest)
    rw [List.flatten_cons, allLines_found (readString_good hl rest.flatten)]
    rw [ih fun x hx => h x (List.mem_cons_of_mem l hx)]

/-- A byte-stream source together with the error behavior of its underlying
reader: `errAtEnd = true` models a reader whose byte supply ends in a genuine
read error rather than `io.EOF`. -/
structure Rdr where
  bytes : List Byte
  errAtEnd : Bool
deriving DecidableEq

/-- Result of one `ReadString` call, as seen by the callers: delimiter found
(`err == nil`), end of stream (`err == io.EOF`), or a genuine read error. -/
inductive PopRes where
  | ok
  | eof
  | ioerr
deriving DecidableEq

/-- Models `ReadString('\n')` on a fallible reader (also the body of `source.pop`):
the data read, the remaining reader, and the error outcome. -/
def readStr (r : Rdr) : Line × Rdr × PopRes :=
  match readString r.bytes with
  | (l, rest, true) => (l, ⟨rest, r.errAtEnd⟩, .ok)
  | (l, rest, false) => (l, ⟨rest, r.errAtEnd⟩, if r.errAtEnd then .ioerr else .eof)

theorem readStr_errAtEnd (r : Rdr) : (readStr r).2.1.errAtEnd = r.errAtEnd := by
  unfold readStr
  cases h : readString r.bytes with
  | mk l rp =>
    cases rp with
    | mk rest found => cases found <;> simp

theorem readStr_ok_iff (r : Rdr) :
    (readStr r).2.2 = .ok ↔ (readString r.bytes).2.2 = true := by
  unfold readStr
  cases h : readString r.bytes with
  | mk l rp =>
    cases rp with
    | mk rest found =>
      cases found
      · cases hr : r.errAtEnd <;> simp [hr]
      · simp

theorem readStr_ioerr (r : Rdr) (h : r.errAtEnd = false) : (readStr r).2.2 ≠ .ioerr := by
  unfold readStr
  cases hs : readString r.bytes with
  | mk l rp =>
    cases rp with
    | mk rest found => cases found <;> simp [h]

/-- Reads up to `limit` lines (`readLines` in the source): the lines read, the
remaining reader, and the final error state (`ok` = `nil`).  A final
unterminated nonempty line gets a newline appended. -/
def readLines (r : Rdr) (limit : Nat) : List Line × Rdr × PopRes :=
  match limit with
  | 0 => ([], r, .ok)
  | limit + 1 =>
    match readStr r with
    | (line, r', .ok) =>
      match readLines r' limit with
      | (ls, r'', res) => (line :: ls, r'', res)
    | (line, r', .eof) =>
      if line = [] then ([], r', .eof)
      else if line.getLast? ≠ some nl then ([line ++ [nl]], r', .eof)
      else ([line], r', .eof)
    | (_, r', .ioerr) => ([], r', .ioerr)

theorem readLines_errAtEnd (r : Rdr) (n : Nat) :
    (readLines r n).2.1.errAtEnd = r.errAtEnd := by
  induction n generalizing r with
  | zero => rfl
  | succ n ih =>
    unfold readLines
    cases hp : readStr r with
    | mk line rp =>
      cases rp with
      | mk r' res =>
        have her : r'.errAtEnd = r.errAtEnd := by
          have := readStr_errAtEnd r
          rw [hp] at this
          exact this
        cases res with
        | ok => exact (ih r').trans her
        | eof =>
          by_cases hl : line = []
          · simpa [hl] using her
          · by_cases hg : line.getLast? ≠ some nl <;> simp [hl, hg, her]
        | ioerr => simpa using her

theorem readStr_eq_found {r : Rdr} {l : Line} {rest : List Byte}
    (h : readString r.bytes = (l, rest, true)) :
    readStr r = (l, ⟨rest, r.errAtEnd⟩, .ok) := by
  unfold readStr
  rw [h]

theorem readStr_eq_not_found {r : Rdr} {l : Line} {rest : List Byte}
    (h : readString r.bytes = (l, rest, false)) :
    readStr r = (l, ⟨rest, r.errAtEnd⟩, if r.errAtEnd then .ioerr else .eof) := by
  unfold readStr
  rw [h]

theorem readLines_bytes_le (r : Rdr) (n : Nat) :
    (readLines r n).2.1.bytes.length ≤ r.bytes.length := by
  induction n generalizing r with
  | zero => exact Nat.le_refl _
  | succ n ih =>
    unfold readLines
    cases hs : readString r.bytes with
    | mk l rp =>
      cases rp with
      | mk rest found =>
        have hlen : l ++ rest = r.bytes := by
          have := readString_append r.bytes
          rw [hs] at this
          simpa using this
        have hrest : rest.length ≤ r.bytes.length := by
          rw [← hlen]
          simp
        cases found with
        | true =>
          rw [readStr_eq_found hs]
          simp only
          exact Nat.le_trans (ih ⟨rest, r.errAtEnd⟩) hrest
        | false =>
          rw [readStr_eq_not_found hs]
          cases he : r.errAtEnd with
          | true => simpa using hrest
          | false =>
            simp only [if_false, Bool.false_eq_true]
            by_cases hl : l = []
            · simpa [hl] using hrest
            · by_cases hg : l.getLast? ≠ some nl <;> simp [hl, hg, hrest]

theorem readLines_bytes_lt (r : Rdr) (n : Nat) (h : (readLines r n).1 ≠ []) :
    (readLines r n).2.1.bytes.length < r.bytes.length := by
  cases n with
  | zero => exact absurd rfl h
  | succ n =>
    unfold readLines at h ⊢
    cases hs : readString r.bytes with
    | mk l rp =>
      cases rp with
      | mk rest found =>
        have hlen : l ++ rest = r.bytes := by
          have := readString_append r.bytes
          rw [hs] at this
          simpa using this
        cases found with
        | true =>
          have hl : l ≠ [] := by
            have := readString_found_ne (s := r.bytes) (by rw [hs])
            rw [hs] at this
            simpa using this
          have hrest : rest.length < r.bytes.length := by
            rw [← hlen]
            have := List.length_pos.mpr hl
            simp only [List.length_append]
            omega
          rw [readStr_eq_found hs]
          simp only
          exact Nat.lt_of_le_of_lt (readLines_bytes_le ⟨rest, r.errAtEnd⟩ n) hrest
        | false =>
          have hrn := readString_not_found r.bytes (by rw [hs])
          rw [hs] at hrn
          simp only at hrn
          rw [readStr_eq_not_found hs] at h ⊢
          cases he : r.errAtEnd with
          | true =>
            rw [he] at h
            simp at h
          | false =>
            rw [he] at h
            simp only [if_false, Bool.false_eq_true] at h ⊢
            by_cases hl : l = []
            · simp [hl] at h
            · have : 0 < l.length := List.length_pos.mpr hl
              have : rest.length < r.bytes.length := by
                rw [← hlen]
                simp only [List.length_append]
                omega
              by_cases hg : l.getLast? ≠ some nl <;> simpa [hl, hg]

theorem readLines_not_ioerr (r : Rdr) (n : Nat) (h : r.errAtEnd = false) :
    (readLines r n).2.2 ≠ .ioerr := by
  induction n generalizing r with
  | zero => simp [readLines]
  | succ n ih =>
    unfold readLines
    cases hs : readString r.bytes with
    | mk l rp =>
      cases rp with
      | mk rest found =>
        cases found with
        | true =>
          rw [readStr_eq_found hs]
          simp only
          exact ih ⟨rest, r.errAtEnd⟩ (by simpa using h)
        | false =>
          rw [readStr_eq_not_found hs, h]
          simp only [if_false, Bool.false_eq_true]
          by_cases hl : l = []
          · simp [hl]
          · by_cases hg : l.getLast? ≠ some nl <;> simp [hl, hg]

theorem readLines_eof_bytes (r : Rdr) (n : Nat) (h : (readLines r n).2.2 = .eof) :
    (readLines r n).2.1.bytes = [] := by
  induction n generalizing r with
  | zero => simp [readLines] at h
  | succ n ih =>
    unfold readLines at h ⊢
    cases hs : readString r.bytes with
    | mk l rp =>
      cases rp with
      | mk rest found =>
        cases found with
        | true =>
          rw [readStr_eq_found hs] at h ⊢
          simp only at h ⊢
          exact ih ⟨rest, r.errAtEnd⟩ h
        | false =>
          have hrn := readString_not_found r.bytes (by rw [hs])
          rw [hs] at hrn
          simp only at hrn
          rw [readStr_eq_not_found hs] at h ⊢
          cases he : r.errAtEnd with
          | true =>
            rw [he] at h
            simp at h
          | false =>
            simp only [if_false, Bool.false_eq_true]
            by_cases hl : l = []
            · simp [hl, hrn.1]
            · by_cases hg : l.getLast? ≠ some nl <;> simp [hl, hg, hrn.1]

theorem readLines_good (r : Rdr) (n : Nat) : ∀ l ∈ (readLines r n).1, GoodLine l := by
  induction n generalizing r with
  | zero => simp [readLines]
  | succ n ih =>
    unfold readLines
    cases hs : readString r.bytes with
    | mk l rp =>
      cases rp with
      | mk rest found =>
        cases found with
        | true =>
          rw [readStr_eq_found hs]
          simp only
          intro x hx
          rcases List.mem_cons.mp hx with h | h
          · subst h
            have := readString_found r.bytes (by rw [hs])
            rw [hs] at this
            exact this
          · exact ih ⟨rest, r.errAtEnd⟩ x h
        | false =>
          have hrn := readString_not_found r.bytes (by rw [hs])
          rw [hs] at hrn
          simp only at hrn
          rw [readStr_eq_not_found hs]
          cases he : r.errAtEnd with
          | true => simp
          | false =>
            simp only [if_false, Bool.false_eq_true]
            by_cases hl : l = []
            · simp [hl]
            · have hg : l.getLast? ≠ some nl := fun hgg => hrn.2 (mem_of_getLast?_eq hgg)
              intro x hx
              rw [if_neg hl, if_pos hg] at hx
              simp only at hx
              rcases List.mem_singleton.mp hx with h
              subst h
              exact ⟨l, rfl, hrn.2⟩

/-- The lines delivered by one `readLines` call are an initial segment of the
lines of the stream: what remains of the stream carries exactly the rest. -/
theorem readLines_decomp (r : Rdr) (n : Nat) (h : r.errAtEnd = false) :
    allLines r.bytes = (readLines r n).1 ++ allLines (readLines r n).2.1.bytes := by
  induction n generalizing r with
  | zero => simp [readLines]
  | succ n ih =>
    unfold readLines
    cases hs : readString r.bytes with
    | mk l rp =>
      cases rp with
      | mk rest found =>
        cases found with
        | true =>
          rw [readStr_eq_found hs]
          simp only
          rw [allLines_found hs]
          rw [ih ⟨rest, r.errAtEnd⟩ (by simpa using h)]
          simp
        | false =>
          have hrn := readString_not_found r.bytes (by rw [hs])
          rw [hs] at hrn
          simp only at hrn
          rw [readStr_eq_not_found hs, h]
          simp only [if_false, Bool.false_eq_true]
          rw [allLines_not_found hs]
          by_cases hl : l = []
          · simp [hl, hrn.1, allLines_nil]
          · have hg : l.getLast? ≠ some nl := fun hgg => hrn.2 (mem_of_getLast?_eq hgg)
            rw [if_neg hl, if_neg hl, if_pos hg, hrn.1]
            simp [allLines_nil]

theorem readLines_nil_bytes (r : Rdr) (n : Nat) (hn : 1 ≤ n) (h : r.errAtEnd = false)
    (hl : (readLines r n).1 = []) : r.bytes = [] := by
  cases n with
  | zero => omega
  | succ n =>
    unfold readLines at hl
    cases hs : readString r.bytes with
    | mk l rp =>
      cases rp with
      | mk rest found =>
        cases found with
        | true =>
          rw [readStr_eq_found hs] at hl
          simp at hl
        | false =>
          have hrn := readString_not_found r.bytes (by rw [hs])
          rw [hs] at hrn
          simp only at hrn
          rw [readStr_eq_not_found hs, h] at hl
          simp only [if_false, Bool.false_eq_true] at hl
          by_cases hl0 : l = []
          · have hlen : l ++ rest = r.bytes := by
              have := readString_append r.bytes
              rw [hs] at this
              simpa using this
            rw [← hlen, hl0, hrn.1]
            rfl
          · by_cases hg : l.getLast? ≠ some nl <;> simp [hl0, hg] at hl

/-- Models `sort.Strings(lines)`: sorts lines ascending under Go string `<`.
`lineLt` is a strict total order (antisymmetric up to equality of lines), so
the sorted rearrangement of a list is unique (`List.eq_of_perm_of_sorted`) and
any correct sorting algorithm yields this result; we use insertion sort. -/
def sortStrings (ls : List Line) : List Line := List.insertionSort LeL ls

theorem sortStrings_perm (ls : List Line) : List.Perm (sortStrings ls) ls :=
  List.perm_insertionSort LeL ls

theorem sortStrings_sorted (ls : List Line) : List.Sorted LeL (sortStrings ls) :=
  List.sorted_insertionSort LeL ls

/-- The loop of `split`: reads batches of at most `limit` lines, sorts each
batch and appends it as a new chunk (`writeChunk`, whose file contents are the
flattened chunk; file-system errors during chunk writing are not modelled).
Returns the chunks and whether a read error aborted the loop.

The two early returns mirror the source exactly: a batch read that fails with
a non-`EOF` error aborts with the chunks so far; an empty batch with at least
one chunk already written breaks the loop.  When the batch is empty and no
chunk exists yet, the source writes the empty chunk and only breaks at the
following iteration (whose `readLines` reads nothing from the unchanged,
already-exhausted reader); the model returns that same result directly. -/
def splitLoop (limit : Nat) (r : Rdr) (chunks : List (List Line)) :
    List (List Line) × Bool :=
  match hrl : readLines r limit with
  | (lines, r', res) =>
    if res = .ioerr then (chunks, true)
    else if lines = [] ∧ chunks ≠ [] then (chunks, false)
    else
      if h : lines = [] then (chunks ++ [sortStrings lines], false)
      else splitLoop limit r' (chunks ++ [sortStrings lines])
termination_by r.bytes.length
decreasing_by
  have := readLines_bytes_lt r limit (by rw [hrl]; simpa using h)
  rw [hrl] at this
  exact this

/-- Models `split`: reads the whole input into sorted chunks of at most `limit`
lines each; a chunk is identified with its list of lines (the corresponding
chunk file holds their concatenation). -/
def split (r : Rdr) (limit : Nat) : List (List Line) × Bool :=
  splitLoop limit r []

theorem splitLoop_ioerr {limit : Nat} {r r' : Rdr} {lines : List Line} {chunks : List (List Line)}
    (hrl : readLines r limit = (lines, r', .ioerr)) :
    splitLoop limit r chunks = (chunks, true) := by
  rw [splitLoop.eq_def, hrl]
  simp

theorem splitLoop_break {limit : Nat} {r r' : Rdr} {res : PopRes} {chunks : List (List Line)}
    (hrl : readLines r limit = ([], r', res)) (hres : res ≠ .ioerr) (hc : chunks ≠ []) :
    splitLoop limit r chunks = (chunks, false) := by
  rw [splitLoop.eq_def, hrl]
  simp [hres, hc]

theorem splitLoop_empty {limit : Nat} {r r' : Rdr} {res : PopRes}
    (hrl : readLines r limit = ([], r', res)) (hres : res ≠ .ioerr) :
    splitLoop limit r [] = ([sortStrings []], false) := by
  rw [splitLoop.eq_def, hrl]
  simp [hres]

theorem splitLoop_step {limit : Nat} {r r' : Rdr} {res : PopRes} {lines : List Line}
    {chunks : List (List Line)}
    (hrl : readLines r limit = (lines, r', res)) (hres : res ≠ .ioerr) (hl : lines ≠ []) :
    splitLoop limit r chunks = splitLoop limit r' (chunks ++ [sortStrings lines]) := by
  rw [splitLoop.eq_def, hrl]
  simp [hres, hl]

/-- Full characterization of the split loop on an error-free reader: it
returns, without error, the chunks it was handed followed by the sorted
batches of a partition of the input's lines; every batch of a nonempty input
is nonempty, and an empty input seen with no chunk yet produces exactly one
empty batch. -/
theorem splitLoop_spec (limit : Nat) (hlim : 1 ≤ limit) :
    ∀ (n : Nat) (r : Rdr), r.bytes.length ≤ n → r.errAtEnd = false →
    ∀ (chunks : List (List Line)),
    ∃ pieces : List (List Line),
      splitLoop limit r chunks = (chunks ++ pieces.map sortStrings, false) ∧
      pieces.flatten = allLines r.bytes ∧
      (r.bytes ≠ [] → ∀ p ∈ pieces, p ≠ []) ∧
      (r.bytes = [] → (chunks = [] → pieces = [[]]) ∧ (chunks ≠ [] → pieces = [])) ∧
      (chunks = [] → pieces ≠ []) := by
  intro n
  induction n with
  | zero =>
    intro r hn he chunks
    have hb : r.bytes = [] := List.length_eq_zero.mp (Nat.le_zero.mp hn)
    have hrl0 : ∃ r' res, readLines r limit = ([], r', res) ∧ res ≠ .ioerr := by
      refine ⟨(readLines r limit).2.1, (readLines r limit).2.2, ?_, readLines_not_ioerr r limit he⟩
      have hdec := readLines_decomp r limit he
      rw [hb, allLines_nil] at hdec
      have : (readLines r limit).1 = [] := by
        cases hql : (readLines r limit).1 with
        | nil => rfl
        | cons a b => rw [hql] at hdec; cases hdec
      rw [← this]
    obtain ⟨r', res, hrl, hres⟩ := hrl0
    by_cases hc : chunks = []
    · subst hc
      refine ⟨[[]], ?_, by simp [hb, allLines_nil], by simp [hb], by simp, by simp⟩
      rw [splitLoop_empty hrl hres]
      simp
    · refine ⟨[], ?_, by simp [hb, allLines_nil], by simp [hb], by simp [hb, hc], by simp [hc]⟩
      rw [splitLoop_break hrl hres hc]
      simp
  | succ n ih =>
    intro r hn he chunks
    cases hrl : readLines r limit with
    | mk lines rp =>
      cases rp with
      | mk r' res =>
        have hres : res ≠ .ioerr := by
          have := readLines_not_ioerr r limit he
          rw [hrl] at this
          exact this
        by_cases hl : lines = []
        · subst hl
          have hb : r.bytes = [] := readLines_nil_bytes r limit hlim he (by rw [hrl])
          by_cases hc : chunks = []
          · subst hc
            refine ⟨[[]], ?_, by simp [hb, allLines_nil], by simp [hb], by simp, by simp⟩
            rw [splitLoop_empty hrl hres]
            simp
          · refine ⟨[], ?_, by simp [hb, allLines_nil], by simp [hb], by simp [hb, hc], by simp [hc]⟩
            rw [splitLoop_break hrl hres hc]
            simp
        · have hblt : r'.bytes.length < r.bytes.length := by
            have := readLines_bytes_lt r limit (by rw [hrl]; simpa using hl)
            rw [hrl] at this
            exact this
          have he' : r'.errAtEnd = false := by
            have := readLines_errAtEnd r limit
            rw [hrl] at this
            simp only at this
            rw [this, he]
          obtain ⟨pieces, hres', hflat, hne, hemp, hne2⟩ :=
            ih r' (by omega) he' (chunks ++ [sortStrings lines])
          refine ⟨lines :: pieces, ?_, ?_, ?_, ?_, ?_⟩
          · rw [splitLoop_step hrl hres hl, hres']
            simp
          · have hdec := readLines_decomp r limit he
            rw [hrl] at hdec
            simp only at hdec
            rw [List.flatten_cons, hflat, hdec]
          · intro _ p hp
            rcases List.mem_cons.mp hp with h | h
            · subst h; exact hl
            · by_cases hb' : r'.bytes = []
              · have : pieces = [] := (hemp hb').2 (by simp)
                rw [this] at h
                cases h
              · exact hne hb' p h
          · intro hb
            exfalso
            have hdec := readLines_decomp r limit he
            rw [hrl, hb, allLines_nil] at hdec
            simp only at hdec
            exact hl (List.append_eq_nil.mp hdec.symm).1
          · intro _
            simp

theorem readStr_ok_spec {r : Rdr} {l : Line} {r' : Rdr} (h : readStr r = (l, r', .ok)) :
    l ++ r'.bytes = r.bytes ∧ GoodLine l ∧ r'.errAtEnd = r.errAtEnd ∧
      streamLines r.bytes = l :: streamLines r'.bytes := by
  cases hs : readString r.bytes with
  | mk l₀ rp =>
    cases rp with
    | mk rest found =>
      cases found with
      | true =>
        rw [readStr_eq_found hs] at h
        obtain ⟨h1, h2, _⟩ := Prod.mk.injEq .. ▸ h
        cases h
        have happ := readString_append r.bytes
        rw [hs] at happ
        simp only at happ
        have hgood := readString_found r.bytes (by rw [hs])
        rw [hs] at hgood
        simp only at hgood
        obtain ⟨m, hm, hmn⟩ := hgood
        refine ⟨happ, ⟨m, hm, hmn⟩, rfl, ?_⟩
        exact streamLines_found hs
      | false =>
        rw [readStr_eq_not_found hs] at h
        cases he : r.errAtEnd with
        | true => rw [he] at h; simp at h
        | false => rw [he] at h; simp at h

theorem readStr_eof_spec {r : Rdr} {l : Line} {r' : Rdr} (h : readStr r = (l, r', .eof)) :
    r'.bytes = [] ∧ streamLines r.bytes = [] ∧ r.errAtEnd = false ∧ r'.errAtEnd = false := by
  cases hs : readString r.bytes with
  | mk l₀ rp =>
    cases rp with
    | mk rest found =>
      cases found with
      | true => rw [readStr_eq_found hs] at h; simp at h
      | false =>
        cases he : r.errAtEnd with
        | true =>
          have hq : readStr r = (l₀, ⟨rest, true⟩, .ioerr) := by
            rw [readStr_eq_not_found hs, he]
            simp
          rw [hq] at h
          simp at h
        | false =>
          have hq : readStr r = (l₀, ⟨rest, false⟩, .eof) := by
            rw [readStr_eq_not_found hs, he]
            simp
          rw [hq] at h
          injection h with h1 h23
          injection h23 with h2 h3
          subst h2
          have hrn := readString_not_found r.bytes (by rw [hs])
          rw [hs] at hrn
          simp only at hrn
          exact ⟨hrn.1, streamLines_not_found hs, rfl, rfl⟩

theorem readStr_ioerr_spec {r : Rdr} {l : Line} {r' : Rdr} (h : readStr r = (l, r', .ioerr)) :
    r.errAtEnd = true ∧ r'.errAtEnd = true := by
  cases hs : readString r.bytes with
  | mk l₀ rp =>
    cases rp with
    | mk rest found =>
      cases found with
      | true => rw [readStr_eq_found hs] at h; simp at h
      | false =>
        cases he : r.errAtEnd with
        | true =>
          have hq : readStr r = (l₀, ⟨rest, true⟩, .ioerr) := by
            rw [readStr_eq_not_found hs, he]
            simp
          rw [hq] at h
          injection h with h1 h23
          injection h23 with h2 h3
          subst h2
          exact ⟨rfl, rfl⟩
        | false =>
          have hq : readStr r = (l₀, ⟨rest, false⟩, .eof) := by
            rw [readStr_eq_not_found hs, he]
            simp
          rw [hq] at h
          simp at h

/-- A live source in a merge (Go `source`): the current smallest unread line
(`top`) plus the rest of the underlying reader. -/
structure Src where
  top : Line
  r : Rdr
deriving DecidableEq

/-- The lines a source still delivers: its `top` followed by the terminated
lines remaining in its reader.  (A final unterminated fragment of the
underlying file is never delivered: `pop` reads it together with `io.EOF`,
and `popMin` then drops the source.) -/
def srcLines (s : Src) : List Line := s.top :: streamLines s.r.bytes

/-- Models `newSourceSet`: prime each reader with its first line via `pop`.  A reader
whose first `pop` reports `io.EOF` is skipped; a read error aborts (second
component `true`). -/
def newSourceSet : List Rdr → List Src × Bool
  | [] => ([], false)
  | r :: rest =>
    match readStr r with
    | (_, _, .eof) => newSourceSet rest
    | (_, _, .ioerr) => ([], true)
    | (line, r', .ok) =>
      match newSourceSet rest with
      | (_, true) => ([], true)
      | (ss, false) => (⟨line, r'⟩ :: ss, false)

/-- The scan inside `popMin`: finds the member with minimal `top` (the
candidate is replaced only on strictly smaller, so the first minimal member
in scan order wins) and returns it together with the other members.  The Go
`sourceSet` is a map whose iteration order is unspecified; the set is
modelled as a list in an arbitrary order, and order-independence of the merge
is proved separately (`MergeRun`). -/
def extractMin : Src → List Src → Src × List Src
  | m, [] => (m, [])
  | m, s :: rest =>
    if lineLt s.top m.top then
      match extractMin s rest with
      | (m', others) => (m', m :: others)
    else
      match extractMin m rest with
      | (m', others) => (m', s :: others)

/-- Models `sourceSet.popMin`: return the minimal `top`, advancing only the source
that held it (`pop`); the source is removed on end-of-stream, and a read
error is flagged for the caller to abort on.  (On the empty set Go would
dereference a nil pointer; callers guarantee nonemptiness, and the model
returns a junk value there.) -/
def popMin : List Src → Line × List Src × Bool
  | [] => ([], [], false)
  | s :: rest =>
    match extractMin s rest with
    | (m, others) =>
      match readStr m.r with
      | (top', r', .ok) => (m.top, ⟨top', r'⟩ :: others, false)
      | (_, _, .eof) => (m.top, others, false)
      | (top', r', .ioerr) => (m.top, ⟨top', r'⟩ :: others, true)

theorem extractMin_perm (m : Src) (ss : List Src) :
    List.Perm (m :: ss) ((extractMin m ss).1 :: (extractMin m ss).2) := by
  induction ss generalizing m with
  | nil => exact List.Perm.refl _
  | cons s rest ih =>
    unfold extractMin
    by_cases h : lineLt s.top m.top = true
    · rw [if_pos h]
      cases hext : extractMin s rest with
      | mk m' others =>
        simp only
        have hthis := ih s
        rw [hext] at hthis
        simp only at hthis
        exact (hthis.cons m).trans (List.Perm.swap m' m others)
    · rw [if_neg h]
      cases hext : extractMin m rest with
      | mk m' others =>
        simp only
        have hthis := ih m
        rw [hext] at hthis
        simp only at hthis
        exact (List.Perm.swap s m rest).trans ((hthis.cons s).trans (List.Perm.swap m' s others))

theorem extractMin_min (m : Src) (ss : List Src) :
    ∀ t ∈ m :: ss, lineLt t.top (extractMin m ss).1.top = false := by
  induction ss generalizing m with
  | nil =>
    intro t ht
    rcases List.mem_cons.mp ht with h | h
    · subst h; exact lineLt_irrefl _
    · cases h
  | cons s rest ih =>
    intro t ht
    unfold extractMin
    by_cases h : lineLt s.top m.top = true
    · rw [if_pos h]
      cases hext : extractMin s rest with
      | mk m' others =>
        simp only
        have hm := ih s
        rw [hext] at hm
        simp only at hm
        rcases List.mem_cons.mp ht with h1 | h1
        · subst h1
          have hsm' : lineLt s.top m'.top = false := hm s (List.mem_cons_self s rest)
          cases hlt : lineLt t.top m'.top with
          | false => rfl
          | true =>
            exfalso
            have := lineLt_trans h hlt |> fun hh => hh
            have h2 : lineLt s.top m'.top = true := lineLt_trans h hlt
            rw [h2] at hsm'
            cases hsm'
        · rcases List.mem_cons.mp h1 with h2 | h2
          · subst h2; exact hm t (List.mem_cons_self t rest)
          · exact hm t (List.mem_cons_of_mem s h2)
    · rw [if_neg h]
      cases hext : extractMin m rest with
      | mk m' others =>
        simp only
        have hm := ih m
        rw [hext] at hm
        simp only at hm
        rcases List.mem_cons.mp ht with h1 | h1
        · subst h1; exact hm t (List.mem_cons_self t rest)
        · rcases List.mem_cons.mp h1 with h2 | h2
          · subst h2
            have hmm' : lineLt m.top m'.top = false := hm m (List.mem_cons_self m rest)
            cases hlt : lineLt t.top m'.top with
            | false => rfl
            | true =>
              exfalso
              have hb : lineLt t.top m.top = false := by
                cases hx : lineLt t.top m.top with
                | false => rfl
                | true => rw [hx] at h; exact absurd rfl h
              rcases lineLt_trichotomy t.top m.top with hx | hx | hx
              · rw [hx] at hb; cases hb
              · have h2 : lineLt m.top m'.top = true := lineLt_trans hx hlt
                rw [h2] at hmm'; cases hmm'
              · rw [hx] at hlt
                rw [hlt] at hmm'; cases hmm'
          · exact hm t (List.mem_cons_of_mem m h2)

/-- The measure for the merge loop: total unread bytes plus number of live
sources (each `popMin` either consumes a line's bytes or drops a source). -/
def srcMeasure (ss : List Src) : Nat :=
  (ss.map (fun t => t.r.bytes.length)).sum + ss.length

theorem popMin_measure {s : Src} {rest : List Src} {l : Line} {ss' : List Src}
    (h : popMin (s :: rest) = (l, ss', false)) :
    srcMeasure ss' < srcMeasure (s :: rest) := by
  simp only [popMin] at h
  cases hext : extractMin s rest with
  | mk m others =>
    rw [hext] at h
    have hperm := extractMin_perm s rest
    rw [hext] at hperm
    simp only at hperm
    have hsum : srcMeasure (s :: rest) = srcMeasure (m :: others) := by
      unfold srcMeasure
      rw [(hperm.map (fun t => t.r.bytes.length)).sum_eq, hperm.length_eq]
    rw [hsum]
    cases hrs : readStr m.r with
    | mk top' rp =>
      cases rp with
      | mk r' res =>
        cases res with
        | ok =>
          rw [hrs] at h
          simp only [Prod.mk.injEq] at h
          obtain ⟨_, h2, _⟩ := h
          subst h2
          obtain ⟨happ, hgood, _, _⟩ := readStr_ok_spec hrs
          have htl : 0 < top'.length := by
            obtain ⟨mm, hm, _⟩ := hgood
            rw [hm]
            simp
          have hlen : top'.length + r'.bytes.length = m.r.bytes.length := by
            rw [← happ]
            simp
          unfold srcMeasure
          simp only [List.map_cons, List.sum_cons, List.length_cons]
          omega
        | eof =>
          rw [hrs] at h
          simp only [Prod.mk.injEq] at h
          obtain ⟨_, h2, _⟩ := h
          subst h2
          unfold srcMeasure
          simp only [List.map_cons, List.sum_cons, List.length_cons]
          omega
        | ioerr =>
          rw [hrs] at h
          simp at h

/-- The merge loop of `mergeSimple`: while sources remain, pop the minimum and
write it to the output; abort on a read error (the line popped together with
the error is not written). -/
def mergeLoop : List Src → List Line × Bool
  | [] => ([], false)
  | s :: rest =>
    match hp : popMin (s :: rest) with
    | (l, ss', false) =>
      match mergeLoop ss' with
      | (out, e) => (l :: out, e)
    | (_, _, true) => ([], true)
termination_by ss => srcMeasure ss
decreasing_by
  exact popMin_measure hp

/-- Models `mergeSimple`: merge a set of sorted inputs into one sorted output.
Returns the lines written and whether a read error aborted the merge.
(Writes to the in-memory buffered output cannot fail in the model.) -/
def mergeSimple (rs : List Rdr) : List Line × Bool :=
  match newSourceSet rs with
  | (_, true) => ([], true)
  | (ss, false) => mergeLoop ss

/-- One possible execution of the merge loop over a source set.  The Go
`sourceSet` is a map with unspecified iteration order, so `popMin` may select
any member whose `top` is minimal; `MergeRun ss out` holds when some such
sequence of choices makes the loop over set `ss` write `out` and finish
without error.  Source-set states are related up to permutation, reflecting
that a map has no member order. -/
inductive MergeRun : List Src → List Line → Prop where
  | nil : MergeRun [] []
  | stepAdv (ss : List Src) (m : Src) (others : List Src) (t : Line) (r' : Rdr)
      (out : List Line) :
      List.Perm ss (m :: others) →
      (∀ s ∈ ss, lineLt s.top m.top = false) →
      readStr m.r = (t, r', .ok) →
      MergeRun (⟨t, r'⟩ :: others) out →
      MergeRun ss (m.top :: out)
  | stepEof (ss : List Src) (m : Src) (others : List Src) (t : Line) (r' : Rdr)
      (out : List Line) :
      List.Perm ss (m :: others) →
      (∀ s ∈ ss, lineLt s.top m.top = false) →
      readStr m.r = (t, r', .eof) →
      MergeRun others out →
      MergeRun ss (m.top :: out)

theorem sorted_head_le {x : Line} {tail : List Line} (h : List.Sorted LeL (x :: tail)) :
    ∀ y ∈ x :: tail, LeL x y := by
  intro y hy
  rcases List.mem_cons.mp hy with h1 | h1
  · subst h1; exact lineLt_irrefl _
  · exact List.rel_of_sorted_cons h y h1

/-- While the set is nonempty, the minimal `top` is a lower bound for every
line any source will ever deliver. -/
theorem min_le_flatten {ss : List Src} {m : Src}
    (hsort : ∀ s ∈ ss, List.Sorted LeL (srcLines s))
    (hmin : ∀ s ∈ ss, lineLt s.top m.top = false) :
    ∀ x ∈ (ss.map srcLines).flatten, LeL m.top x := by
  intro x hx
  rw [List.mem_flatten] at hx
  obtain ⟨ls, hls, hxl⟩ := hx
  rw [List.mem_map] at hls
  obtain ⟨s, hs, hsl⟩ := hls
  subst hsl
  have h1 : LeL m.top s.top := hmin s hs
  have hss := hsort s hs
  unfold srcLines at hss hxl
  have h2 : LeL s.top x := sorted_head_le hss x hxl
  exact Trans.trans h1 h2

/-- Any error-free run of the merge loop over sorted sources emits exactly
the lines of all sources, in sorted order. -/
theorem mergeRun_spec {ss : List Src} {out : List Line} (hrun : MergeRun ss out)
    (hsort : ∀ s ∈ ss, List.Sorted LeL (srcLines s)) :
    List.Perm out (ss.map srcLines).flatten ∧ List.Sorted LeL out := by
  induction hrun with
  | nil => exact ⟨List.Perm.refl _, List.sorted_nil⟩
  | stepAdv ss m others t r' out hperm hmin hrs hrun ih =>
    obtain ⟨_, _, _, hstream⟩ := readStr_ok_spec hrs
    have hm_mem : m ∈ ss := hperm.mem_iff.mpr (List.mem_cons_self m others)
    have hm_sorted : List.Sorted LeL (srcLines m) := hsort m hm_mem
    have hsrc_m : srcLines m = m.top :: t :: streamLines r'.bytes := by
      unfold srcLines
      rw [hstream]
    have hsort' : ∀ s ∈ (⟨t, r'⟩ : Src) :: others, List.Sorted LeL (srcLines s) := by
      intro s hs
      rcases List.mem_cons.mp hs with h1 | h1
      · subst h1
        have : List.Sorted LeL (m.top :: t :: streamLines r'.bytes) := hsrc_m ▸ hm_sorted
        exact (List.sorted_cons.mp this).2
      · exact hsort s (hperm.mem_iff.mpr (List.mem_cons_of_mem m h1))
    obtain ⟨ihperm, ihsorted⟩ := ih hsort'
    have hflat : List.Perm ((ss.map srcLines).flatten)
        (srcLines m ++ ((others.map srcLines).flatten)) := by
      have := (hperm.map srcLines).flatten
      simpa using this
    constructor
    · have hstep : m.top :: (((⟨t, r'⟩ : Src) :: others).map srcLines).flatten =
          srcLines m ++ (others.map srcLines).flatten := by
        simp only [List.map_cons, List.flatten_cons, hsrc_m]
        simp [srcLines]
      have h1 : List.Perm (m.top :: out)
          (m.top :: (((⟨t, r'⟩ : Src) :: others).map srcLines).flatten) := ihperm.cons m.top
      rw [hstep] at h1
      exact h1.trans hflat.symm
    · rw [List.sorted_cons]
      refine ⟨?_, ihsorted⟩
      intro b hb
      have hb' : b ∈ (((⟨t, r'⟩ : Src) :: others).map srcLines).flatten := ihperm.mem_iff.mp hb
      have hsub : b ∈ (ss.map srcLines).flatten := by
        refine hflat.mem_iff.mpr ?_
        simp only [List.map_cons, List.flatten_cons] at hb'
        rcases List.mem_append.mp hb' with h1 | h1
        · exact List.mem_append.mpr (Or.inl (by rw [hsrc_m]; exact List.mem_cons_of_mem _ h1))
        · exact List.mem_append.mpr (Or.inr h1)
      exact min_le_flatten hsort hmin b hsub
  | stepEof ss m others t r' out hperm hmin hrs hrun ih =>
    obtain ⟨_, hstream, _, _⟩ := readStr_eof_spec hrs
    have hm_mem : m ∈ ss := hperm.mem_iff.mpr (List.mem_cons_self m others)
    have hsrc_m : srcLines m = [m.top] := by
      unfold srcLines
      rw [hstream]
    have hsort' : ∀ s ∈ others, List.Sorted LeL (srcLines s) := fun s hs =>
      hsort s (hperm.mem_iff.mpr (List.mem_cons_of_mem m hs))
    obtain ⟨ihperm, ihsorted⟩ := ih hsort'
    have hflat : List.Perm ((ss.map srcLines).flatten)
        (srcLines m ++ ((others.map srcLines).flatten)) := by
      have := (hperm.map srcLines).flatten
      simpa using this
    constructor
    · have h1 : List.Perm (m.top :: out) (m.top :: (others.map srcLines).flatten) :=
        ihperm.cons m.top
      have hstep : m.top :: (others.map srcLines).flatten =
          srcLines m ++ (others.map srcLines).flatten := by
        rw [hsrc_m]
        rfl
      rw [hstep] at h1
      exact h1.trans hflat.symm
    · rw [List.sorted_cons]
      refine ⟨?_, ihsorted⟩
      intro b hb
      have hb' : b ∈ (others.map srcLines).flatten := ihperm.mem_iff.mp hb
      have hsub : b ∈ (ss.map srcLines).flatten :=
        hflat.mem_iff.mpr (List.mem_append.mpr (Or.inr hb'))
      exact min_le_flatten hsort hmin b hsub

/-- Any two error-free runs over the same sorted sources write the same
output: the sorted rearrangement of a multiset is unique. -/
theorem mergeRun_det {ss : List Src} {o1 o2 : List Line}
    (hsort : ∀ s ∈ ss, List.Sorted LeL (srcLines s))
    (h1 : MergeRun ss o1) (h2 : MergeRun ss o2) : o1 = o2 := by
  obtain ⟨hp1, hs1⟩ := mergeRun_spec h1 hsort
  obtain ⟨hp2, hs2⟩ := mergeRun_spec h2 hsort
  exact List.eq_of_perm_of_sorted (hp1.trans hp2.symm) hs1 hs2

theorem mergeLoop_nil : mergeLoop [] = ([], false) := by
  rw [mergeLoop.eq_def]

theorem mergeLoop_cons {s : Src} {rest : List Src} {l : Line} {ss' : List Src}
    (hp : popMin (s :: rest) = (l, ss', false)) :
    mergeLoop (s :: rest) = (l :: (mergeLoop ss').1, (mergeLoop ss').2) := by
  rw [mergeLoop.eq_def]
  simp only
  split
  next heq =>
    rw [hp] at heq
    injection heq with e1 e23
    injection e23 with e2 e3
    subst e1
    subst e2
    cases hm : mergeLoop ss' with
    | mk out e => simp
  next x y heq =>
    rw [hp] at heq
    simp at heq

theorem mergeLoop_cons_err {s : Src} {rest : List Src} {l : Line} {ss' : List Src}
    (hp : popMin (s :: rest) = (l, ss', true)) :
    mergeLoop (s :: rest) = ([], true) := by
  rw [mergeLoop.eq_def]
  simp only
  split
  next heq =>
    rw [hp] at heq
    simp at heq
  next x y heq => rfl

/-- What one `popMin` call on a nonempty set does: some member `m` with
minimal `top` is selected; its top is returned and it alone is advanced,
dropped on end-of-stream, with a read error flagged. -/
theorem popMin_spec (s : Src) (rest : List Src) :
    ∃ m others,
      List.Perm (s :: rest) (m :: others) ∧
      (∀ u ∈ s :: rest, lineLt u.top m.top = false) ∧
      ((∃ t r', readStr m.r = (t, r', .ok) ∧
          popMin (s :: rest) = (m.top, ⟨t, r'⟩ :: others, false)) ∨
       (∃ t r', readStr m.r = (t, r', .eof) ∧
          popMin (s :: rest) = (m.top, others, false)) ∨
       (∃ t r', readStr m.r = (t, r', .ioerr) ∧
          popMin (s :: rest) = (m.top, ⟨t, r'⟩ :: others, true))) := by
  cases hext : extractMin s rest with
  | mk m others =>
    have hperm := extractMin_perm s rest
    rw [hext] at hperm
    simp only at hperm
    have hmin := extractMin_min s rest
    rw [hext] at hmin
    simp only at hmin
    refine ⟨m, others, hperm, hmin, ?_⟩
    cases hrs : readStr m.r with
    | mk t rp =>
      cases rp with
      | mk r' res =>
        cases res with
        | ok =>
          left
          exact ⟨t, r', rfl, by simp only [popMin, hext, hrs]⟩
        | eof =>
          right; left
          exact ⟨t, r', rfl, by simp only [popMin, hext, hrs]⟩
        | ioerr =>
          right; right
          exact ⟨t, r', rfl, by simp only [popMin, hext, hrs]⟩

/-- On error-free sources the merge loop finishes without error, and its
output is one of the legal nondeterministic runs. -/
theorem mergeLoop_run :
    ∀ (n : Nat) (ss : List Src), srcMeasure ss ≤ n →
    (∀ s ∈ ss, s.r.errAtEnd = false) →
    (mergeLoop ss).2 = false ∧ MergeRun ss (mergeLoop ss).1 := by
  intro n
  induction n using Nat.strong_induction_on with
  | _ n ih =>
    intro ss hn he
    cases ss with
    | nil => exact ⟨by rw [mergeLoop_nil], by rw [mergeLoop_nil]; exact MergeRun.nil⟩
    | cons s rest =>
      obtain ⟨m, others, hperm, hmin, hcase⟩ := popMin_spec s rest
      have hm_mem : m ∈ s :: rest := hperm.mem_iff.mpr (List.mem_cons_self m others)
      have hm_err : m.r.errAtEnd = false := he m hm_mem
      have hoth_err : ∀ u ∈ others, u.r.errAtEnd = false := fun u hu =>
        he u (hperm.mem_iff.mpr (List.mem_cons_of_mem m hu))
      rcases hcase with ⟨t, r', hrs, hp⟩ | ⟨t, r', hrs, hp⟩ | ⟨t, r', hrs, hp⟩
      · have hr'e : r'.errAtEnd = false := by
          obtain ⟨_, _, h3, _⟩ := readStr_ok_spec hrs
          rw [h3, hm_err]
        have hmeas : srcMeasure (⟨t, r'⟩ :: others) < srcMeasure (s :: rest) :=
          popMin_measure hp
        have he' : ∀ u ∈ (⟨t, r'⟩ : Src) :: others, u.r.errAtEnd = false := by
          intro u hu
          rcases List.mem_cons.mp hu with h1 | h1
          · subst h1; exact hr'e
          · exact hoth_err u h1
        obtain ⟨ihf, ihrun⟩ :=
          ih (srcMeasure (⟨t, r'⟩ :: others)) (by omega) _ (Nat.le_refl _) he'
        rw [mergeLoop_cons hp]
        exact ⟨ihf, MergeRun.stepAdv _ m others t r' _ hperm hmin hrs ihrun⟩
      · have hmeas : srcMeasure others < srcMeasure (s :: rest) := popMin_measure hp
        obtain ⟨ihf, ihrun⟩ :=
          ih (srcMeasure others) (by omega) _ (Nat.le_refl _) hoth_err
        rw [mergeLoop_cons hp]
        exact ⟨ihf, MergeRun.stepEof _ m others t r' _ hperm hmin hrs ihrun⟩
      · exfalso
        have := (readStr_ioerr_spec hrs).1
        rw [hm_err] at this
        cases this

/-- A source whose reader ends in a read error always eventually aborts the
merge loop: it can only leave the set through that error. -/
theorem mergeLoop_err :
    ∀ (n : Nat) (ss : List Src), srcMeasure ss ≤ n →
    (∃ s ∈ ss, s.r.errAtEnd = true) →
    (mergeLoop ss).2 = true := by
  intro n
  induction n using Nat.strong_induction_on with
  | _ n ih =>
    intro ss hn he
    cases ss with
    | nil =>
      obtain ⟨s, hs, _⟩ := he
      cases hs
    | cons s rest =>
      obtain ⟨x, hx_mem, hx_err⟩ := he
      obtain ⟨m, others, hperm, hmin, hcase⟩ := popMin_spec s rest
      rcases hcase with ⟨t, r', hrs, hp⟩ | ⟨t, r', hrs, hp⟩ | ⟨t, r', hrs, hp⟩
      · have hmeas := popMin_measure hp
        rw [mergeLoop_cons hp]
        refine ih (srcMeasure (⟨t, r'⟩ :: others)) (by omega) _ (Nat.le_refl _) ?_
        by_cases hmx : m.r.errAtEnd = true
        · refine ⟨⟨t, r'⟩, List.mem_cons_self _ _, ?_⟩
          obtain ⟨_, _, h3, _⟩ := readStr_ok_spec hrs
          rw [h3, hmx]
        · have hx_cons : x ∈ m :: others := hperm.mem_iff.mp hx_mem
          rcases List.mem_cons.mp hx_cons with h1 | h1
          · exfalso; subst h1; exact hmx hx_err
          · exact ⟨x, List.mem_cons_of_mem _ h1, hx_err⟩
      · have hmeas := popMin_measure hp
        rw [mergeLoop_cons hp]
        refine ih (srcMeasure others) (by omega) _ (Nat.le_refl _) ?_
        have hme : m.r.errAtEnd = false := (readStr_eof_spec hrs).2.2.1
        have hx_cons : x ∈ m :: others := hperm.mem_iff.mp hx_mem
        rcases List.mem_cons.mp hx_cons with h1 | h1
        · exfalso; subst h1; rw [hme] at hx_err; cases hx_err
        · exact ⟨x, h1, hx_err⟩
      · rw [mergeLoop_cons_err hp]

/-- Spec of `newSourceSet` on error-free readers: no error, the survivors are exactly
the readers with at least one terminated line (in order), and all survivors
are error-free. -/
theorem newSourceSet_spec (rs : List Rdr) (he : ∀ r ∈ rs, r.errAtEnd = false) :
    (newSourceSet rs).2 = false ∧
    (newSourceSet rs).1.map srcLines =
      (rs.map (fun r => streamLines r.bytes)).filter (fun ls => !ls.isEmpty) ∧
    (∀ s ∈ (newSourceSet rs).1, s.r.errAtEnd = false) := by
  induction rs with
  | nil => exact ⟨rfl, rfl, by intro s hs; cases hs⟩
  | cons r rest ih =>
    have hre : r.errAtEnd = false := he r (List.mem_cons_self r rest)
    have he' : ∀ u ∈ rest, u.errAtEnd = false := fun u hu => he u (List.mem_cons_of_mem r hu)
    obtain ⟨ihf, ihmap, iherr⟩ := ih he'
    cases hrs : readStr r with
    | mk line rp =>
      cases rp with
      | mk r' res =>
        cases res with
        | eof =>
          have hsl : streamLines r.bytes = [] := (readStr_eof_spec hrs).2.1
          have heq : newSourceSet (r :: rest) = newSourceSet rest := by
            simp only [newSourceSet, hrs]
          rw [heq]
          refine ⟨ihf, ?_, iherr⟩
          simp [hsl, ihmap]
        | ioerr =>
          exfalso
          have := (readStr_ioerr_spec hrs).1
          rw [hre] at this
          cases this
        | ok =>
          obtain ⟨_, _, h3, h4⟩ := readStr_ok_spec hrs
          cases hns : newSourceSet rest with
          | mk ss fl =>
            rw [hns] at ihf ihmap iherr
            simp only at ihf ihmap iherr
            subst ihf
            have heq : newSourceSet (r :: rest) = (⟨line, r'⟩ :: ss, false) := by
              simp only [newSourceSet, hrs, hns]
            rw [heq]
            refine ⟨rfl, ?_, ?_⟩
            · have hnonempty : (streamLines r.bytes).isEmpty = false := by
                rw [h4]
                rfl
              simp only [List.map_cons, List.filter_cons, hnonempty]
              simp only [Bool.not_false, if_true]
              rw [← ihmap]
              congr 1
              unfold srcLines
              simp only
              rw [h4]
            · intro u hu
              rcases List.mem_cons.mp hu with h1 | h1
              · subst h1
                simpa [h3] using hre
              · exact iherr u h1

theorem newSourceSet_err (rs : List Rdr) (he : ∃ r ∈ rs, r.errAtEnd = true) :
    (newSourceSet rs).2 = true ∨ ∃ s ∈ (newSourceSet rs).1, s.r.errAtEnd = true := by
  induction rs with
  | nil =>
    obtain ⟨r, hr, _⟩ := he
    cases hr
  | cons r rest ih =>
    obtain ⟨x, hx_mem, hx_err⟩ := he
    cases hrs : readStr r with
    | mk line rp =>
      cases rp with
      | mk r' res =>
        cases res with
        | ioerr =>
          left
          simp only [newSourceSet, hrs]
        | eof =>
          have hre : r.errAtEnd = false := (readStr_eof_spec hrs).2.2.1
          have heq : newSourceSet (r :: rest) = newSourceSet rest := by
            simp only [newSourceSet, hrs]
          rw [heq]
          refine ih ⟨x, ?_, hx_err⟩
          rcases List.mem_cons.mp hx_mem with h1 | h1
          · exfalso; subst h1; rw [hre] at hx_err; cases hx_err
          · exact h1
        | ok =>
          obtain ⟨_, _, h3, _⟩ := readStr_ok_spec hrs
          cases hns : newSourceSet rest with
          | mk ss fl =>
            cases fl with
            | true =>
              left
              simp only [newSourceSet, hrs, hns]
            | false =>
              have heq : newSourceSet (r :: rest) = (⟨line, r'⟩ :: ss, false) := by
                simp only [newSourceSet, hrs, hns]
              rw [heq]
              by_cases hre : r.errAtEnd = true
              · right
                exact ⟨⟨line, r'⟩, List.mem_cons_self _ _, by simpa [h3] using hre⟩
              · have hx_rest : x ∈ rest := by
                  rcases List.mem_cons.mp hx_mem with h1 | h1
                  · exfalso; subst h1; exact hre hx_err
                  · exact h1
                rcases ih ⟨x, hx_rest, hx_err⟩ with h1 | h1
                · rw [hns] at h1; cases h1
                · right
                  rw [hns] at h1
                  obtain ⟨u, hu, hue⟩ := h1
                  exact ⟨u, List.mem_cons_of_mem _ hu, hue⟩

theorem flatten_filter_ne_nil (L : List (List Line)) :
    ((L.filter (fun ls => !ls.isEmpty)).flatten) = L.flatten := by
  induction L with
  | nil => rfl
  | cons l rest ih =>
    cases l with
    | nil => simpa using ih
    | cons a as => simpa using ih

/-- Spec of `mergeSimple` on error-free readers whose terminated lines are each
sorted: succeeds, and the output is a sorted permutation of all the readers'
terminated lines. -/
theorem mergeSimple_ok (rs : List Rdr) (he : ∀ r ∈ rs, r.errAtEnd = false)
    (hs : ∀ r ∈ rs, List.Sorted LeL (streamLines r.bytes)) :
    (mergeSimple rs).2 = false ∧
    List.Perm (mergeSimple rs).1 ((rs.map (fun r => streamLines r.bytes)).flatten) ∧
    List.Sorted LeL (mergeSimple rs).1 := by
  obtain ⟨hflag, hmap, herr⟩ := newSourceSet_spec rs he
  cases hns : newSourceSet rs with
  | mk ss fl =>
    rw [hns] at hflag hmap herr
    simp only at hflag hmap herr
    subst hflag
    have heq : mergeSimple rs = mergeLoop ss := by
      simp only [mergeSimple, hns]
    rw [heq]
    have hsorted : ∀ s ∈ ss, List.Sorted LeL (srcLines s) := by
      intro s hss
      have hmem : srcLines s ∈ ss.map srcLines := List.mem_map_of_mem srcLines hss
      rw [hmap] at hmem
      have hmem2 : srcLines s ∈ rs.map (fun r => streamLines r.bytes) :=
        List.mem_of_mem_filter hmem
      rw [List.mem_map] at hmem2
      obtain ⟨r, hr, hrl⟩ := hmem2
      rw [← hrl]
      exact hs r hr
    obtain ⟨hf, hrun⟩ := mergeLoop_run (srcMeasure ss) ss (Nat.le_refl _) herr
    obtain ⟨hperm, hsort_out⟩ := mergeRun_spec hrun hsorted
    refine ⟨hf, ?_, hsort_out⟩
    rw [hmap] at hperm
    rw [← flatten_filter_ne_nil (rs.map (fun r => streamLines r.bytes))]
    exact hperm

/-- Theorem: `mergeSimple` aborts with an error exactly when some input reader ends in
a read error (such a source can leave the working set only through the
error). -/
theorem mergeSimple_err_iff (rs : List Rdr) :
    (mergeSimple rs).2 = true ↔ ∃ r ∈ rs, r.errAtEnd = true := by
  constructor
  · intro h
    by_contra hno
    push_neg at hno
    have he : ∀ r ∈ rs, r.errAtEnd = false := by
      intro r hr
      cases hx : r.errAtEnd with
      | false => rfl
      | true => exact absurd hx (hno r hr)
    obtain ⟨hflag, _, herr⟩ := newSourceSet_spec rs he
    cases hns : newSourceSet rs with
    | mk ss fl =>
      rw [hns] at hflag herr
      simp only at hflag herr
      subst hflag
      have heq : mergeSimple rs = mergeLoop ss := by
        simp only [mergeSimple, hns]
      rw [heq] at h
      obtain ⟨hf, _⟩ := mergeLoop_run (srcMeasure ss) ss (Nat.le_refl _) herr
      rw [hf] at h
      cases h
  · intro he
    rcases newSourceSet_err rs he with h1 | h1
    · cases hns : newSourceSet rs with
      | mk ss fl =>
        rw [hns] at h1
        simp only at h1
        subst h1
        simp only [mergeSimple, hns]
    · cases hns : newSourceSet rs with
      | mk ss fl =>
        rw [hns] at h1
        simp only at h1
        cases fl with
        | true => simp only [mergeSimple, hns]
        | false =>
          have heq : mergeSimple rs = mergeLoop ss := by
            simp only [mergeSimple, hns]
          rw [heq]
          exact mergeLoop_err (srcMeasure ss) ss (Nat.le_refl _) h1

/-- Go's `min` helper (arguments are the nonnegative ints of this program). -/
def goMin (a b : Nat) : Nat := if a < b then a else b

/-- Go's `max` helper. -/
def goMax (a b : Nat) : Nat := if a > b then a else b

/-- Models `strSliceSplit s limit`: breaks a slice into consecutive subslices of at
most `limit` items each (the loop `for i := 0; i < len(s); i += limit` with
`s[i:min(len(s), i+limit)]`, phrased as take/drop).  Go panics for
`limit < 1`; the model returns `[]` on that branch (every call in the
program passes a positive limit). -/
def strSliceSplit {α : Type _} : List α → Nat → List (List α)
  | _, 0 => []
  | [], _ + 1 => []
  | a :: t, limit + 1 =>
    (a :: t).take (limit + 1) :: strSliceSplit ((a :: t).drop (limit + 1)) (limit + 1)
termination_by s _ => s.length
decreasing_by
  simp only [List.length_drop, List.length_cons]
  omega

theorem strSliceSplit_nil {α : Type _} (limit : Nat) :
    strSliceSplit ([] : List α) limit = [] := by
  cases limit <;> rw [strSliceSplit.eq_def]

theorem strSliceSplit_cons {α : Type _} (a : α) (t : List α) (l : Nat) :
    strSliceSplit (a :: t) (l + 1) =
      (a :: t).take (l + 1) :: strSliceSplit ((a :: t).drop (l + 1)) (l + 1) := by
  rw [strSliceSplit.eq_def]

theorem strSliceSplit_flatten {α : Type _} (s : List α) (limit : Nat) (h : 1 ≤ limit) :
    (strSliceSplit s limit).flatten = s := by
  generalize hn : s.length = n
  induction n using Nat.strong_induction_on generalizing s with
  | _ n ih =>
    cases limit with
    | zero => omega
    | succ l =>
      cases s with
      | nil => rw [strSliceSplit_nil]; rfl
      | cons a t =>
        rw [strSliceSplit_cons]
        simp only [List.flatten_cons]
        rw [ih ((a :: t).drop (l + 1)).length (by subst hn; simp; omega) _ rfl]
        exact List.take_append_drop (l + 1) (a :: t)

theorem strSliceSplit_mem {α : Type _} (s : List α) (limit : Nat) (h : 1 ≤ limit) :
    ∀ g ∈ strSliceSplit s limit, g ≠ [] ∧ g.length ≤ limit := by
  generalize hn : s.length = n
  induction n using Nat.strong_induction_on generalizing s with
  | _ n ih =>
    cases limit with
    | zero => omega
    | succ l =>
      cases s with
      | nil => rw [strSliceSplit_nil]; intro g hg; cases hg
      | cons a t =>
        rw [strSliceSplit_cons]
        intro g hg
        rcases List.mem_cons.mp hg with h1 | h1
        · subst h1
          constructor
          · simp
          · simp
        · exact ih ((a :: t).drop (l + 1)).length (by subst hn; simp; omega) _ rfl g h1

theorem strSliceSplit_length_le {α : Type _} (s : List α) (l : Nat) :
    (strSliceSplit s (l + 1)).length ≤ s.length := by
  generalize hn : s.length = n
  induction n using Nat.strong_induction_on generalizing s with
  | _ n ih =>
    cases s with
    | nil => rw [strSliceSplit_nil]; simp
    | cons a t =>
      rw [strSliceSplit_cons]
      simp only [List.length_cons]
      have hd : ((a :: t).drop (l + 1)).length = (a :: t).length - (l + 1) := by simp
      have := ih ((a :: t).drop (l + 1)).length (by subst hn; simp; omega) _ rfl
      simp only [List.length_cons] at *
      omega

theorem strSliceSplit_length_lt {α : Type _} (s : List α) (limit : Nat)
    (h2 : 2 ≤ limit) (hgt : limit < s.length) :
    (strSliceSplit s limit).length < s.length := by
  generalize hn : s.length = n
  induction n using Nat.strong_induction_on generalizing s with
  | _ n ih =>
    cases limit with
    | zero => omega
    | succ l =>
      cases s with
      | nil => simp at hgt
      | cons a t =>
        rw [strSliceSplit_cons]
        simp only [List.length_cons]
        have hdl : ((a :: t).drop (l + 1)).length = (a :: t).length - (l + 1) := by simp
        by_cases hrest : l + 1 < ((a :: t).drop (l + 1)).length
        · have := ih ((a :: t).drop (l + 1)).length (by subst hn; simp; omega)
            _ hrest rfl
          subst hn
          simp only [List.length_cons] at *
          omega
        · have hsmall := strSliceSplit_length_le ((a :: t).drop (l + 1)) l
          subst hn
          simp only [List.length_cons] at *
          omega

/-- A temporary file, identified with its byte contents. -/
abbrev FileC := List Byte

/-- Models `mergeSimpleFiles` at the level of file contents: the output file holds
the concatenation of the merged lines.  (Temp-file naming, input deletion and
the buffered writer live at the file-system level and are modelled separately
by `mergeSimpleFilesFx`; chunk and merge files are read back error-free.) -/
def mergeSimpleFilesC (cs : List FileC) : FileC :=
  (mergeSimple (cs.map (fun c => ⟨c, false⟩))).1.flatten

/-- Failure of a modelled `merge` run: `fuelOut` means the modelling fuel was
exhausted (Go's recursion genuinely diverges for `limit = 1` on two or more
files), `panicEmpty` is the `panic("Empty names")` branch. -/
inductive MErr where
  | fuelOut
  | panicEmpty
deriving DecidableEq

mutual

/-- Models `merge names limit` over file contents, with explicit recursion fuel.
Besides the result (one merged file) it returns the trace of direct-merge
sizes: one entry per `mergeSimpleFiles` call, recording how many files that
call received (= how many input files it holds open simultaneously). -/
def mergeC : Nat → List FileC → Nat → (Except MErr FileC) × List Nat
  | 0, _, _ => (.error .fuelOut, [])
  | _ + 1, [], _ => (.error .panicEmpty, [])
  | _ + 1, [c], _ => (.ok c, [])
  | fuel + 1, c₁ :: c₂ :: cs, limit =>
    if (c₁ :: c₂ :: cs).length ≤ limit then
      (.ok (mergeSimpleFilesC (c₁ :: c₂ :: cs)), [(c₁ :: c₂ :: cs).length])
    else
      match mergeGroupsC fuel (strSliceSplit (c₁ :: c₂ :: cs) limit) limit with
      | (.error e, tr) => (.error e, tr)
      | (.ok reduced, tr) =>
        match mergeC fuel reduced limit with
        | (res, tr') => (res, tr ++ tr')
termination_by fuel _ _ => (fuel, 0, 0)

/-- The loop of `merge`'s recursive case: reduce each group by a recursive
`merge` call, collecting the resulting filenames; the first failure aborts. -/
def mergeGroupsC : Nat → List (List FileC) → Nat → (Except MErr (List FileC)) × List Nat
  | _, [], _ => (.ok [], [])
  | fuel, g :: gs, limit =>
    match mergeC fuel g limit with
    | (.error e, tr) => (.error e, tr)
    | (.ok c, tr) =>
      match mergeGroupsC fuel gs limit with
      | (.error e, tr') => (.error e, tr ++ tr')
      | (.ok cs, tr') => (.ok (c :: cs), tr ++ tr')
termination_by fuel gs _ => (fuel, 1, gs.length)

end

/-- The effective fan-in limit `min(100, max(10, limit))` used by the
top-level `sortLines` call. -/
def effLimit (limit : Nat) : Nat := goMin 100 (goMax 10 limit)

/-- Models `sortLines`: split the input into sorted chunk files, then merge-tree
reduce them under the clamped fan-in limit, returning the final file's
contents.  The input stream is error-free here (`split` then cannot fail;
`sortLines`'s split-error path only deletes the chunks and forwards the
error), and `fuel` bounds the modelled `merge` recursion. -/
def sortLinesM (s : List Byte) (limit : Nat) (fuel : Nat) : Except MErr FileC :=
  (mergeC fuel ((split ⟨s, false⟩ limit).1.map (fun c => c.flatten)) (effLimit limit)).1

/-- Models `sortLinesFile`: sort, then atomically rename the final temp file to the
destination path — the destination file's contents are the sort's output. -/
def sortLinesFileM (s : List Byte) (limit : Nat) (fuel : Nat) : Except MErr FileC :=
  sortLinesM s limit fuel

/-- Models `sortLinesWrite`: sort, then copy the final temp file's bytes to the
output writer (deleting the temp file) — the bytes written are the sort's
output. -/
def sortLinesWriteM (s : List Byte) (limit : Nat) (fuel : Nat) : Except MErr FileC :=
  sortLinesM s limit fuel

theorem streamLines_good (s : List Byte) : ∀ l ∈ streamLines s, GoodLine l := by
  generalize hn : s.length = n
  induction n using Nat.strong_induction_on generalizing s with
  | _ n ih =>
    cases hr : readString s with
    | mk l rp =>
      cases rp with
      | mk rest found =>
        cases found with
        | false =>
          rw [streamLines_not_found hr]
          intro x hx
          cases hx
        | true =>
          rw [streamLines_found hr]
          intro x hx
          rcases List.mem_cons.mp hx with h | h
          · subst h
            have := readString_found s (by rw [hr])
            rw [hr] at this
            exact this
          · have hlt : rest.length < n := by
              have := readString_len_lt s (readString_found_ne (by rw [hr]))
              rw [hr] at this
              simp only at this
              omega
            exact ih rest.length hlt rest rfl x h

/-- Contents of a well-formed chunk or merge file: a concatenation of good
lines (each nonempty, newline-terminated, no interior newline). -/
def GoodFile (c : FileC) : Prop := ∃ ls : List Line, c = ls.flatten ∧ ∀ l ∈ ls, GoodLine l

theorem GoodFile.flatten_streamLines {c : FileC} (h : GoodFile c) :
    c = (streamLines c).flatten := by
  obtain ⟨ls, hc, hg⟩ := h
  subst hc
  rw [streamLines_flatten hg]

theorem GoodFile.of_lines {ls : List Line} (h : ∀ l ∈ ls, GoodLine l) :
    GoodFile ls.flatten := ⟨ls, rfl, h⟩

theorem goodFile_streamLines_eq {ls : List Line} (h : ∀ l ∈ ls, GoodLine l) :
    streamLines ls.flatten = ls := streamLines_flatten h

/-- Spec of `mergeSimpleFiles` on well-formed sorted input files: the output file is
well-formed, its lines are sorted, and they are a permutation of all input
lines together. -/
theorem mergeSimpleFilesC_spec (cs : List FileC)
    (h : ∀ c ∈ cs, GoodFile c) (hs : ∀ c ∈ cs, List.Sorted LeL (streamLines c)) :
    GoodFile (mergeSimpleFilesC cs) ∧
    List.Sorted LeL (streamLines (mergeSimpleFilesC cs)) ∧
    List.Perm (streamLines (mergeSimpleFilesC cs)) ((cs.map streamLines).flatten) := by
  have he : ∀ r ∈ cs.map (fun c => (⟨c, false⟩ : Rdr)), r.errAtEnd = false := by
    intro r hr
    rw [List.mem_map] at hr
    obtain ⟨c, _, hc⟩ := hr
    rw [← hc]
  have hsr : ∀ r ∈ cs.map (fun c => (⟨c, false⟩ : Rdr)),
      List.Sorted LeL (streamLines r.bytes) := by
    intro r hr
    rw [List.mem_map] at hr
    obtain ⟨c, hcm, hc⟩ := hr
    rw [← hc]
    exact hs c hcm
  obtain ⟨_, hperm, hsorted⟩ := mergeSimple_ok _ he hsr
  have hout_good : ∀ l ∈ (mergeSimple (cs.map (fun c => (⟨c, false⟩ : Rdr)))).1, GoodLine l := by
    intro l hl
    have := hperm.mem_iff.mp hl
    rw [List.mem_flatten] at this
    obtain ⟨bs, hbs, hlb⟩ := this
    rw [List.mem_map] at hbs
    obtain ⟨r, _, hr⟩ := hbs
    subst hr
    rw [List.mem_map] at *
    exact streamLines_good _ l hlb
  have hmap : ((cs.map (fun c => (⟨c, false⟩ : Rdr))).map (fun r => streamLines r.bytes)) =
      cs.map streamLines := by
    rw [List.map_map]
    rfl
  have hstream : streamLines (mergeSimpleFilesC cs) =
      (mergeSimple (cs.map (fun c => (⟨c, false⟩ : Rdr)))).1 := by
    unfold mergeSimpleFilesC
    exact streamLines_flatten hout_good
  refine ⟨?_, ?_, ?_⟩
  · exact GoodFile.of_lines hout_good
  · rw [hstream]; exact hsorted
  · rw [hstream]
    rw [hmap] at hperm
    exact hperm

theorem mergeC_zero (cs : List FileC) (limit : Nat) :
    mergeC 0 cs limit = (.error .fuelOut, []) := by
  rw [mergeC.eq_def]

theorem mergeC_nil (fuel limit : Nat) :
    mergeC (fuel + 1) [] limit = (.error .panicEmpty, []) := by
  rw [mergeC.eq_def]

theorem mergeC_single (fuel limit : Nat) (c : FileC) :
    mergeC (fuel + 1) [c] limit = (.ok c, []) := by
  rw [mergeC.eq_def]

theorem mergeC_direct (fuel limit : Nat) (c₁ c₂ : FileC) (cs : List FileC)
    (h : (c₁ :: c₂ :: cs).length ≤ limit) :
    mergeC (fuel + 1) (c₁ :: c₂ :: cs) limit =
      (.ok (mergeSimpleFilesC (c₁ :: c₂ :: cs)), [(c₁ :: c₂ :: cs).length]) := by
  rw [mergeC.eq_def]
  simp only [if_pos h]

theorem mergeC_rec (fuel limit : Nat) (c₁ c₂ : FileC) (cs : List FileC)
    (h : ¬ (c₁ :: c₂ :: cs).length ≤ limit) :
    mergeC (fuel + 1) (c₁ :: c₂ :: cs) limit =
      (match mergeGroupsC fuel (strSliceSplit (c₁ :: c₂ :: cs) limit) limit with
       | (.error e, tr) => (.error e, tr)
       | (.ok reduced, tr) =>
         match mergeC fuel reduced limit with
         | (res, tr') => (res, tr ++ tr')) := by
  rw [mergeC.eq_def]
  simp only [if_neg h]

theorem mergeGroupsC_nil (fuel limit : Nat) :
    mergeGroupsC fuel [] limit = (.ok [], []) := by
  rw [mergeGroupsC.eq_def]

theorem mergeGroupsC_cons (fuel limit : Nat) (g : List FileC) (gs : List (List FileC)) :
    mergeGroupsC fuel (g :: gs) limit =
      (match mergeC fuel g limit with
       | (.error e, tr) => (.error e, tr)
       | (.ok c, tr) =>
         match mergeGroupsC fuel gs limit with
         | (.error e, tr') => (.error e, tr ++ tr')
         | (.ok cs, tr') => (.ok (c :: cs), tr ++ tr')) := by
  rw [mergeGroupsC.eq_def]

theorem flatten_map_flatten (gs : List (List FileC)) :
    (gs.map (fun g => (g.map streamLines).flatten)).flatten =
      ((gs.flatten).map streamLines).flatten := by
  induction gs with
  | nil => rfl
  | cons g rest ih =>
    simp only [List.map_cons, List.flatten_cons, List.map_append, List.flatten_append, ih]

/-- The postcondition of `mergeC` on well-formed sorted files: a successful
merge returns a well-formed file whose sorted lines are a permutation of all
input lines. -/
def MergeCPost (fuel : Nat) : Prop :=
  ∀ (cs : List FileC) (limit : Nat) (out : FileC) (tr : List Nat),
    (∀ c ∈ cs, GoodFile c ∧ List.Sorted LeL (streamLines c)) →
    mergeC fuel cs limit = (.ok out, tr) →
    GoodFile out ∧ List.Sorted LeL (streamLines out) ∧
    List.Perm (streamLines out) ((cs.map streamLines).flatten)

theorem mergeGroupsC_post (fuel : Nat) (h1 : MergeCPost fuel) :
    ∀ (gs : List (List FileC)) (limit : Nat) (outs : List FileC) (tr : List Nat),
      (∀ g ∈ gs, ∀ c ∈ g, GoodFile c ∧ List.Sorted LeL (streamLines c)) →
      mergeGroupsC fuel gs limit = (.ok outs, tr) →
      (∀ c ∈ outs, GoodFile c ∧ List.Sorted LeL (streamLines c)) ∧
      List.Perm ((outs.map streamLines).flatten)
        ((gs.map (fun g => (g.map streamLines).flatten)).flatten) := by
  intro gs
  induction gs with
  | nil =>
    intro limit outs tr _ h
    rw [mergeGroupsC_nil] at h
    injection h with ha hb
    injection ha with hc
    subst hc
    subst hb
    refine ⟨?_, List.Perm.refl _⟩
    intro c hc
    cases hc
  | cons g gs ih =>
    intro limit outs tr hpre h
    rw [mergeGroupsC_cons] at h
    cases hg : mergeC fuel g limit with
    | mk res tr₀ =>
      rw [hg] at h
      cases res with
      | error e => simp at h
      | ok c =>
        simp only at h
        cases hgs : mergeGroupsC fuel gs limit with
        | mk res' tr₁ =>
          rw [hgs] at h
          cases res' with
          | error e => simp at h
          | ok cs₂ =>
            simp only at h
            injection h with ha hb
            injection ha with hc
            subst hc
            have hcpost := h1 g limit c tr₀ (hpre g (List.mem_cons_self g gs)) hg
            have ihpost := ih limit cs₂ tr₁
              (fun g' hg' => hpre g' (List.mem_cons_of_mem g hg')) hgs
            constructor
            · intro c' hc'
              rcases List.mem_cons.mp hc' with h1' | h1'
              · subst h1'; exact ⟨hcpost.1, hcpost.2.1⟩
              · exact ihpost.1 c' h1'
            · simp only [List.map_cons, List.flatten_cons]
              exact hcpost.2.2.append ihpost.2

theorem mergeC_post : ∀ fuel, MergeCPost fuel := by
  intro fuel
  induction fuel with
  | zero =>
    intro cs limit out tr _ h
    rw [mergeC_zero] at h
    simp at h
  | succ fuel ih =>
    intro cs limit out tr hpre h
    match cs with
    | [] =>
      rw [mergeC_nil] at h
      simp at h
    | [c] =>
      rw [mergeC_single] at h
      injection h with ha hb
      injection ha with hc
      subst hc
      obtain ⟨hg, hs⟩ := hpre c (List.mem_cons_self c [])
      exact ⟨hg, hs, by simp⟩
    | c₁ :: c₂ :: cs' =>
      by_cases hlen : (c₁ :: c₂ :: cs').length ≤ limit
      · rw [mergeC_direct _ _ _ _ _ hlen] at h
        injection h with ha hb
        injection ha with hc
        subst hc
        exact mergeSimpleFilesC_spec _ (fun c hc => (hpre c hc).1) (fun c hc => (hpre c hc).2)
      · rw [mergeC_rec _ _ _ _ _ hlen] at h
        cases hgg : mergeGroupsC fuel (strSliceSplit (c₁ :: c₂ :: cs') limit) limit with
        | mk res tr₀ =>
          rw [hgg] at h
          cases res with
          | error e => simp at h
          | ok reduced =>
            simp only at h
            cases hmc : mergeC fuel reduced limit with
            | mk res' tr₁ =>
              rw [hmc] at h
              cases res' with
              | error e => simp at h
              | ok out₂ =>
                injection h with ha hb
                injection ha with hc
                subst hc
                cases limit with
                | zero =>
                  exfalso
                  rw [strSliceSplit.eq_def] at hgg
                  simp only at hgg
                  rw [mergeGroupsC_nil] at hgg
                  injection hgg with ha' hb'
                  injection ha' with hc'
                  subst hc'
                  cases fuel with
                  | zero => rw [mergeC_zero] at hmc; simp at hmc
                  | succ f => rw [mergeC_nil] at hmc; simp at hmc
                | succ l =>
                  have hflat := strSliceSplit_flatten (c₁ :: c₂ :: cs') (l + 1) (by omega)
                  have hgroups_pre : ∀ g ∈ strSliceSplit (c₁ :: c₂ :: cs') (l + 1),
                      ∀ c ∈ g, GoodFile c ∧ List.Sorted LeL (streamLines c) := by
                    intro g hg c hc
                    refine hpre c ?_
                    rw [← hflat]
                    rw [List.mem_flatten]
                    exact ⟨g, hg, hc⟩
                  obtain ⟨hred_pre, hred_perm⟩ :=
                    mergeGroupsC_post fuel ih _ (l + 1) reduced tr₀ hgroups_pre hgg
                  obtain ⟨hout_good, hout_sorted, hout_perm⟩ :=
                    ih reduced (l + 1) out₂ tr₁ hred_pre hmc
                  refine ⟨hout_good, hout_sorted, ?_⟩
                  have hchain := hout_perm.trans hred_perm
                  rw [flatten_map_flatten, hflat] at hchain
                  exact hchain

/-- Fuel monotonicity: a successful `mergeC` run is preserved by more fuel. -/
def MergeCMono (fuel : Nat) : Prop :=
  ∀ (cs : List FileC) (limit : Nat) (out : FileC) (tr : List Nat) (fuel' : Nat),
    fuel ≤ fuel' → mergeC fuel cs limit = (.ok out, tr) →
    mergeC fuel' cs limit = (.ok out, tr)

theorem mergeGroupsC_mono (fuel : Nat) (h1 : MergeCMono fuel) :
    ∀ (gs : List (List FileC)) (limit : Nat) (outs : List FileC) (tr : List Nat)
      (fuel' : Nat), fuel ≤ fuel' →
      mergeGroupsC fuel gs limit = (.ok outs, tr) →
      mergeGroupsC fuel' gs limit = (.ok outs, tr) := by
  intro gs
  induction gs with
  | nil =>
    intro limit outs tr fuel' _ h
    rw [mergeGroupsC_nil] at h ⊢
    exact h
  | cons g gs ih =>
    intro limit outs tr fuel' hle h
    rw [mergeGroupsC_cons] at h ⊢
    cases hg : mergeC fuel g limit with
    | mk res tr₀ =>
      rw [hg] at h
      cases res with
      | error e => simp at h
      | ok c =>
        simp only at h
        cases hgs : mergeGroupsC fuel gs limit with
        | mk res' tr₁ =>
          rw [hgs] at h
          cases res' with
          | error e => simp at h
          | ok cs₂ =>
            injection h with ha hb
            injection ha with hc
            rw [h1 g limit c tr₀ fuel' hle hg, ih limit cs₂ tr₁ fuel' hle hgs]
            simp only
            rw [hc, hb]

theorem mergeC_mono : ∀ fuel, MergeCMono fuel := by
  intro fuel
  induction fuel with
  | zero =>
    intro cs limit out tr fuel' _ h
    rw [mergeC_zero] at h
    simp at h
  | succ fuel ih =>
    intro cs limit out tr fuel' hle h
    cases fuel' with
    | zero => omega
    | succ f' =>
      have hle' : fuel ≤ f' := by omega
      match cs with
      | [] =>
        rw [mergeC_nil] at h
        simp at h
      | [c] =>
        rw [mergeC_single] at h ⊢
        exact h
      | c₁ :: c₂ :: cs' =>
        by_cases hlen : (c₁ :: c₂ :: cs').length ≤ limit
        · rw [mergeC_direct _ _ _ _ _ hlen] at h ⊢
          exact h
        · rw [mergeC_rec _ _ _ _ _ hlen] at h ⊢
          cases hgg : mergeGroupsC fuel (strSliceSplit (c₁ :: c₂ :: cs') limit) limit with
          | mk res tr₀ =>
            rw [hgg] at h
            cases res with
            | error e => simp at h
            | ok reduced =>
              simp only at h
              cases hmc : mergeC fuel reduced limit with
              | mk res' tr₁ =>
                rw [hmc] at h
                cases res' with
                | error e => simp at h
                | ok out₂ =>
                  injection h with ha hb
                  injection ha with hc
                  rw [mergeGroupsC_mono fuel ih _ limit reduced tr₀ f' hle' hgg]
                  simp only
                  rw [ih reduced limit out₂ tr₁ f' hle' hmc]
                  simp only
                  rw [hc, hb]

/-- Every entry of the direct-merge trace is at most the fan-in limit (a
direct merge is only performed when the file count fits the limit). -/
def MergeCTrace (fuel : Nat) : Prop :=
  ∀ (cs : List FileC) (limit : Nat), ∀ k ∈ (mergeC fuel cs limit).2, k ≤ limit

theorem mergeGroupsC_trace (fuel : Nat) (h1 : MergeCTrace fuel) :
    ∀ (gs : List (List FileC)) (limit : Nat), ∀ k ∈ (mergeGroupsC fuel gs limit).2,
      k ≤ limit := by
  intro gs
  induction gs with
  | nil =>
    intro limit k hk
    rw [mergeGroupsC_nil] at hk
    cases hk
  | cons g gs ih =>
    intro limit k hk
    rw [mergeGroupsC_cons] at hk
    cases hg : mergeC fuel g limit with
    | mk res tr₀ =>
      rw [hg] at hk
      have htr₀ : ∀ k ∈ tr₀, k ≤ limit := by
        intro k' hk'
        have := h1 g limit k'
        rw [hg] at this
        exact this hk'
      cases res with
      | error e => exact htr₀ k hk
      | ok c =>
        simp only at hk
        cases hgs : mergeGroupsC fuel gs limit with
        | mk res' tr₁ =>
          rw [hgs] at hk
          have htr₁ : ∀ k ∈ tr₁, k ≤ limit := by
            intro k' hk'
            have := ih limit k'
            rw [hgs] at this
            exact this hk'
          cases res' with
          | error e =>
            simp only at hk
            rcases List.mem_append.mp hk with h' | h'
            · exact htr₀ k h'
            · exact htr₁ k h'
          | ok cs₂ =>
            simp only at hk
            rcases List.mem_append.mp hk with h' | h'
            · exact htr₀ k h'
            · exact htr₁ k h'

theorem mergeC_trace : ∀ fuel, MergeCTrace fuel := by
  intro fuel
  induction fuel with
  | zero =>
    intro cs limit k hk
    rw [mergeC_zero] at hk
    cases hk
  | succ fuel ih =>
    intro cs limit k hk
    match cs with
    | [] =>
      rw [mergeC_nil] at hk
      cases hk
    | [c] =>
      rw [mergeC_single] at hk
      cases hk
    | c₁ :: c₂ :: cs' =>
      by_cases hlen : (c₁ :: c₂ :: cs').length ≤ limit
      · rw [mergeC_direct _ _ _ _ _ hlen] at hk
        rcases List.mem_singleton.mp hk with h'
        subst h'
        exact hlen
      · rw [mergeC_rec _ _ _ _ _ hlen] at hk
        cases hgg : mergeGroupsC fuel (strSliceSplit (c₁ :: c₂ :: cs') limit) limit with
        | mk res tr₀ =>
          rw [hgg] at hk
          have htr₀ : ∀ k ∈ tr₀, k ≤ limit := by
            intro k' hk'
            have := mergeGroupsC_trace fuel ih (strSliceSplit (c₁ :: c₂ :: cs') limit) limit k'
            rw [hgg] at this
            exact this hk'
          cases res with
          | error e => exact htr₀ k hk
          | ok reduced =>
            simp only at hk
            cases hmc : mergeC fuel reduced limit with
            | mk res' tr₁ =>
              rw [hmc] at hk
              simp only at hk
              rcases List.mem_append.mp hk with h' | h'
              · exact htr₀ k h'
              · have := ih reduced limit k
                rw [hmc] at this
                exact this h'

/-- Theorem: `merge` on a nonempty filename list (with positive limit) never reaches
the `panic("Empty names")` branch, in the body or in any recursive call. -/
def MergeCNoPanic (fuel : Nat) : Prop :=
  ∀ (cs : List FileC) (limit : Nat), 1 ≤ limit → cs ≠ [] →
    (mergeC fuel cs limit).1 ≠ .error .panicEmpty

theorem mergeGroupsC_no_panic (fuel : Nat) (h1 : MergeCNoPanic fuel) :
    ∀ (gs : List (List FileC)) (limit : Nat), 1 ≤ limit → (∀ g ∈ gs, g ≠ []) →
      (mergeGroupsC fuel gs limit).1 ≠ .error .panicEmpty ∧
      (∀ outs tr, mergeGroupsC fuel gs limit = (.ok outs, tr) →
        outs.length = gs.length) := by
  intro gs
  induction gs with
  | nil =>
    intro limit _ _
    rw [mergeGroupsC_nil]
    constructor
    · simp
    · intro outs tr h
      injection h with ha hb
      injection ha with hc
      rw [← hc]
      rfl
  | cons g gs ih =>
    intro limit hlim hne
    rw [mergeGroupsC_cons]
    cases hg : mergeC fuel g limit with
    | mk res tr₀ =>
      cases res with
      | error e =>
        have : e ≠ .panicEmpty := by
          intro he
          subst he
          have := h1 g limit hlim (hne g (List.mem_cons_self g gs))
          rw [hg] at this
          exact this rfl
        constructor
        · simpa using this
        · intro outs tr h
          simp at h
      | ok c =>
        simp only
        cases hgs : mergeGroupsC fuel gs limit with
        | mk res' tr₁ =>
          obtain ⟨ih1, ih2⟩ := ih limit hlim (fun g' hg' => hne g' (List.mem_cons_of_mem g hg'))
          rw [hgs] at ih1 ih2
          cases res' with
          | error e =>
            constructor
            · simpa using ih1
            · intro outs tr h
              simp at h
          | ok cs₂ =>
            constructor
            · simp
            · intro outs tr h
              injection h with ha hb
              injection ha with hc
              rw [← hc]
              simp only [List.length_cons]
              rw [ih2 cs₂ tr₁ rfl]

theorem mergeC_no_panic : ∀ fuel, MergeCNoPanic fuel := by
  intro fuel
  induction fuel with
  | zero =>
    intro cs limit _ _
    rw [mergeC_zero]
    simp
  | succ fuel ih =>
    intro cs limit hlim hne
    match cs with
    | [] => exact absurd rfl hne
    | [c] =>
      rw [mergeC_single]
      simp
    | c₁ :: c₂ :: cs' =>
      by_cases hlen : (c₁ :: c₂ :: cs').length ≤ limit
      · rw [mergeC_direct _ _ _ _ _ hlen]
        simp
      · rw [mergeC_rec _ _ _ _ _ hlen]
        have hgs_ne : ∀ g ∈ strSliceSplit (c₁ :: c₂ :: cs') limit, g ≠ [] :=
          fun g hg => (strSliceSplit_mem _ _ hlim g hg).1
        obtain ⟨hnp, hlen_eq⟩ := mergeGroupsC_no_panic fuel ih _ limit hlim hgs_ne
        cases hgg : mergeGroupsC fuel (strSliceSplit (c₁ :: c₂ :: cs') limit) limit with
        | mk res tr₀ =>
          rw [hgg] at hnp hlen_eq
          cases res with
          | error e => simpa using hnp
          | ok reduced =>
            simp only
            cases hmc : mergeC fuel reduced limit with
            | mk res' tr₁ =>
              have hred_ne : reduced ≠ [] := by
                have hlen_red : reduced.length =
                    (strSliceSplit (c₁ :: c₂ :: cs') limit).length := hlen_eq reduced tr₀ rfl
                have hg_ne : strSliceSplit (c₁ :: c₂ :: cs') limit ≠ [] := by
                  cases hl : limit with
                  | zero => omega
                  | succ l => rw [strSliceSplit_cons]; simp
                intro hr
                rw [hr] at hlen_red
                simp only [List.length_nil] at hlen_red
                exact hg_ne (List.length_eq_zero.mp hlen_red.symm)
              have := ih reduced limit hlim hred_ne
              rw [hmc] at this
              simpa using this

/-- Sufficient fuel exists: with fan-in at least 2, `merge` terminates on any
nonempty input list. -/
theorem mergeC_one_ok (cs : List FileC) (limit : Nat) (hne : cs ≠ [])
    (hlen : cs.length ≤ limit) :
    ∃ out tr, mergeC 1 cs limit = (.ok out, tr) := by
  match cs with
  | [] => exact absurd rfl hne
  | [c] => exact ⟨c, [], mergeC_single 0 limit c⟩
  | c₁ :: c₂ :: cs' =>
    exact ⟨_, _, mergeC_direct 0 limit c₁ c₂ cs' hlen⟩

theorem mergeGroupsC_one_ok (gs : List (List FileC)) (limit : Nat)
    (h : ∀ g ∈ gs, g ≠ [] ∧ g.length ≤ limit) :
    ∃ outs tr, mergeGroupsC 1 gs limit = (.ok outs, tr) ∧ outs.length = gs.length := by
  induction gs with
  | nil => exact ⟨[], [], mergeGroupsC_nil 1 limit, rfl⟩
  | cons g gs ih =>
    obtain ⟨hg_ne, hg_len⟩ := h g (List.mem_cons_self g gs)
    obtain ⟨out, tr₀, hout⟩ := mergeC_one_ok g limit hg_ne hg_len
    obtain ⟨outs, tr₁, houts, hlen⟩ := ih (fun g' hg' => h g' (List.mem_cons_of_mem g hg'))
    refine ⟨out :: outs, tr₀ ++ tr₁, ?_, by simp [hlen]⟩
    rw [mergeGroupsC_cons, hout]
    simp only
    rw [houts]

theorem mergeC_total :
    ∀ (n : Nat) (cs : List FileC) (limit : Nat), cs.length ≤ n → cs ≠ [] → 2 ≤ limit →
    ∃ fuel out tr, mergeC fuel cs limit = (.ok out, tr) := by
  intro n
  induction n using Nat.strong_induction_on with
  | _ n ih =>
    intro cs limit hn hne hlim
    match cs with
    | [] => exact absurd rfl hne
    | [c] => exact ⟨1, c, [], mergeC_single 0 limit c⟩
    | c₁ :: c₂ :: cs' =>
      by_cases hlen : (c₁ :: c₂ :: cs').length ≤ limit
      · exact ⟨1, _, _, mergeC_direct 0 limit c₁ c₂ cs' hlen⟩
      · have hgs := strSliceSplit_mem (c₁ :: c₂ :: cs') limit (by omega)
        obtain ⟨reduced, trg, hred, hred_len⟩ :=
          mergeGroupsC_one_ok (strSliceSplit (c₁ :: c₂ :: cs') limit) limit hgs
        have hred_lt : reduced.length < (c₁ :: c₂ :: cs').length := by
          rw [hred_len]
          exact strSliceSplit_length_lt _ _ hlim (by omega)
        have hred_ne : reduced ≠ [] := by
          have hg_ne : strSliceSplit (c₁ :: c₂ :: cs') limit ≠ [] := by
            cases hl : limit with
            | zero => omega
            | succ l => rw [strSliceSplit_cons]; simp
          intro hr
          rw [hr] at hred_len
          simp only [List.length_nil] at hred_len
          exact hg_ne (List.length_eq_zero.mp hred_len.symm)
        obtain ⟨fuel₂, out, tr₂, hout⟩ :=
          ih reduced.length (by omega) reduced limit (Nat.le_refl _) hred_ne hlim
        refine ⟨max 1 fuel₂ + 1, out, trg ++ tr₂, ?_⟩
        rw [mergeC_rec _ _ _ _ _ hlen]
        rw [mergeGroupsC_mono 1 (mergeC_mono 1) _ limit reduced trg (max 1 fuel₂)
          (Nat.le_max_left 1 fuel₂) hred]
        simp only
        rw [mergeC_mono fuel₂ reduced limit out tr₂ (max 1 fuel₂)
          (Nat.le_max_right 1 fuel₂) hout]

theorem effLimit_bounds (l : Nat) : 10 ≤ effLimit l ∧ effLimit l ≤ 100 := by
  unfold effLimit goMin goMax
  split_ifs <;> omega

theorem sortStrings_good {p : List Line} (hp : ∀ l ∈ p, GoodLine l) :
    ∀ l ∈ sortStrings p, GoodLine l := fun l hl =>
  hp l ((sortStrings_perm p).mem_iff.mp hl)

theorem flatten_map_sortStrings_perm (pieces : List (List Line)) :
    List.Perm ((pieces.map sortStrings).flatten) pieces.flatten := by
  induction pieces with
  | nil => exact List.Perm.refl _
  | cons p ps ih =>
    simp only [List.map_cons, List.flatten_cons]
    exact (sortStrings_perm p).append ih

/-- The chunk files produced by `split` from an error-free stream: no error,
and each file is well-formed with sorted lines; together their lines are
exactly the input's lines. -/
theorem split_files_spec (s : List Byte) (limit : Nat) (hlim : 1 ≤ limit) :
    (split ⟨s, false⟩ limit).2 = false ∧
    (∀ c ∈ (split ⟨s, false⟩ limit).1.map (fun c => c.flatten),
      GoodFile c ∧ List.Sorted LeL (streamLines c)) ∧
    List.Perm
      (((split ⟨s, false⟩ limit).1.map (fun c => c.flatten)).map streamLines).flatten
      (allLines s) ∧
    (split ⟨s, false⟩ limit).1 ≠ [] := by
  obtain ⟨pieces, hres, hflat, _, _, hnn⟩ :=
    splitLoop_spec limit hlim (⟨s, false⟩ : Rdr).bytes.length ⟨s, false⟩ (Nat.le_refl _) rfl []
  have hsplit : split ⟨s, false⟩ limit = (pieces.map sortStrings, false) := by
    unfold split
    rw [hres]
    simp
  rw [hsplit]
  simp only
  have hpieces_good : ∀ p ∈ pieces, ∀ l ∈ p, GoodLine l := by
    intro p hp l hl
    have : l ∈ pieces.flatten := List.mem_flatten.mpr ⟨p, hp, hl⟩
    rw [hflat] at this
    exact allLines_good s l this
  refine ⟨trivial, ?_, ?_, ?_⟩
  · intro c hc
    rw [List.map_map, List.mem_map] at hc
    obtain ⟨p, hp, hpc⟩ := hc
    have hgood := sortStrings_good (hpieces_good p hp)
    rw [← hpc]
    simp only [Function.comp]
    refine ⟨GoodFile.of_lines hgood, ?_⟩
    rw [goodFile_streamLines_eq hgood]
    exact sortStrings_sorted p
  · have hmap : ((pieces.map sortStrings).map (fun c => c.flatten)).map streamLines =
        pieces.map sortStrings := by
      rw [List.map_map, List.map_map]
      refine List.map_congr_left ?_
      intro p hp
      simp only [Function.comp]
      exact goodFile_streamLines_eq (sortStrings_good (hpieces_good p hp))
    rw [hmap, ← hflat]
    exact flatten_map_sortStrings_perm pieces
  · have := hnn rfl
    intro hcon
    rw [List.map_eq_nil] at hcon
    exact this hcon

/-- Full functional specification of a successful `sortLines` run on an
error-free input: the output file is well-formed and carries, in sorted
order, exactly the lines of the input. -/
theorem sortLinesM_spec {s : List Byte} {limit fuel : Nat} {out : FileC}
    (hlim : 1 ≤ limit) (h : sortLinesM s limit fuel = .ok out) :
    GoodFile out ∧ List.Sorted LeL (streamLines out) ∧
    List.Perm (streamLines out) (allLines s) ∧ allLines out = streamLines out := by
  obtain ⟨hflag, hfiles, hperm, hne⟩ := split_files_spec s limit hlim
  unfold sortLinesM at h
  cases hm : mergeC fuel ((split ⟨s, false⟩ limit).1.map (fun c => c.flatten))
      (effLimit limit) with
  | mk res tr =>
    rw [hm] at h
    simp only at h
    cases res with
    | error e => cases h
    | ok out₂ =>
      injection h with hout
      subst hout
      obtain ⟨hg, hs, hp⟩ := mergeC_post fuel _ (effLimit limit) out₂ tr hfiles hm
      refine ⟨hg, hs, hp.trans hperm, ?_⟩
      obtain ⟨ls, hc, hgl⟩ := hg
      subst hc
      rw [allLines_flatten hgl, streamLines_flatten hgl]

/-- For every input and positive chunk limit there is enough fuel for
`sortLines` to return a result. -/
theorem sortLinesM_total (s : List Byte) (limit : Nat) (hlim : 1 ≤ limit) :
    ∃ fuel out, sortLinesM s limit fuel = .ok out := by
  obtain ⟨_, _, _, hne⟩ := split_files_spec s limit hlim
  have hfne : (split ⟨s, false⟩ limit).1.map (fun c => c.flatten) ≠ [] := by
    intro hcon
    rw [List.map_eq_nil] at hcon
    exact hne hcon
  have hlim2 : 2 ≤ effLimit limit := by
    have := (effLimit_bounds limit).1
    omega
  obtain ⟨fuel, out, tr, hok⟩ := mergeC_total
    ((split ⟨s, false⟩ limit).1.map (fun c => c.flatten)).length _ (effLimit limit)
    (Nat.le_refl _) hfne hlim2
  refine ⟨fuel, out, ?_⟩
  unfold sortLinesM
  rw [hok]

/-- Theorem: `sortLines` on the empty input returns the (empty) contents of the one
empty chunk file `split` wrote, without error. -/
theorem sortLinesM_nil (limit fuel : Nat) (hlim : 1 ≤ limit) :
    sortLinesM [] limit (fuel + 1) = .ok [] := by
  obtain ⟨pieces, hres, hflat, _, hemp, _⟩ :=
    splitLoop_spec limit hlim (⟨[], false⟩ : Rdr).bytes.length ⟨[], false⟩ (Nat.le_refl _) rfl []
  have hp : pieces = [[]] := (hemp rfl).1 rfl
  subst hp
  have hsplit : split ⟨[], false⟩ limit = ([sortStrings []], false) := by
    unfold split
    rw [hres]
    simp
  unfold sortLinesM
  rw [hsplit]
  simp only [List.map_cons, List.map_nil]
  have hsort_nil : sortStrings [] = [] := rfl
  rw [hsort_nil]
  rw [show (([] : List Line).flatten : List Byte) = [] from rfl]
  rw [mergeC_single fuel (effLimit limit) []]

/-- An input that is empty or ends in a newline is exactly the concatenation
of its lines (no terminator is synthesized for it). -/
theorem flatten_allLines_of_terminated (s : List Byte)
    (h : s = [] ∨ s.getLast? = some nl) : (allLines s).flatten = s := by
  generalize hn : s.length = n
  induction n using Nat.strong_induction_on generalizing s with
  | _ n ih =>
    rcases h with h | h
    · subst h
      rw [allLines_nil]
      rfl
    · cases hr : readString s with
      | mk l rp =>
        cases rp with
        | mk rest found =>
          have happ : l ++ rest = s := by
            have := readString_append s
            rw [hr] at this
            simpa using this
          cases found with
          | false =>
            exfalso
            have hrn := readString_not_found s (by rw [hr])
            rw [hr] at hrn
            simp only at hrn
            have hs_ne : s ≠ [] := by
              intro hc
              rw [hc] at h
              cases h
            have : nl ∈ s := mem_of_getLast?_eq h
            rw [← happ, hrn.1] at this
            simp only [List.append_nil] at this
            exact hrn.2 this
          | true =>
            rw [allLines_found hr]
            have hl_ne : l ≠ [] := by
              have := readString_found_ne (s := s) (by rw [hr])
              rw [hr] at this
              simpa using this
            by_cases hrest : rest = []
            · subst hrest
              rw [allLines_nil]
              simp only [List.flatten_cons]
              rw [← happ]
              rfl
            · have hrest_last : rest.getLast? = some nl := by
                rw [← happ] at h
                rwa [List.getLast?_append_of_ne_nil l hrest] at h
              have hlt : rest.length < n := by
                have := readString_len_lt s (readString_found_ne (by rw [hr]))
                rw [hr] at this
                simp only at this
                omega
              simp only [List.flatten_cons]
              rw [ih rest.length hlt rest (Or.inr hrest_last) rfl, happ]

theorem splitLoop_extends (limit : Nat) :
    ∀ (n : Nat) (r : Rdr) (chunks : List (List Line)), r.bytes.length ≤ n →
    ∃ suffix, (splitLoop limit r chunks).1 = chunks ++ suffix := by
  intro n
  induction n using Nat.strong_induction_on with
  | _ n ih =>
    intro r chunks hn
    cases hrl : readLines r limit with
    | mk lines rp =>
      cases rp with
      | mk r' res =>
        by_cases hio : res = .ioerr
        · subst hio
          rw [splitLoop_ioerr hrl]
          exact ⟨[], by simp⟩
        · by_cases hl : lines = []
          · subst hl
            by_cases hc : chunks = []
            · subst hc
              rw [splitLoop_empty hrl hio]
              exact ⟨[sortStrings []], rfl⟩
            · rw [splitLoop_break hrl hio hc]
              exact ⟨[], by simp⟩
          · rw [splitLoop_step hrl hio hl]
            have hblt : r'.bytes.length < r.bytes.length := by
              have := readLines_bytes_lt r limit (by rw [hrl]; simpa using hl)
              rw [hrl] at this
              exact this
            obtain ⟨suffix, hsuf⟩ :=
              ih r'.bytes.length (by omega) r' (chunks ++ [sortStrings lines]) (Nat.le_refl _)
            exact ⟨sortStrings lines :: suffix, by rw [hsuf]; simp⟩

/-- Whenever `split` returns without error it returns at least one chunk. -/
theorem split_ne_nil (r : Rdr) (limit : Nat) (h : (split r limit).2 = false) :
    (split r limit).1 ≠ [] := by
  unfold split at h ⊢
  cases hrl : readLines r limit with
  | mk lines rp =>
    cases rp with
    | mk r' res =>
      by_cases hio : res = .ioerr
      · subst hio
        rw [splitLoop_ioerr hrl] at h
        cases h
      · by_cases hl : lines = []
        · subst hl
          rw [splitLoop_empty hrl hio]
          simp
        · rw [splitLoop_step hrl hio hl]
          simp only [List.nil_append]
          obtain ⟨suffix, hsuf⟩ :=
            splitLoop_extends limit r'.bytes.length r' [sortStrings lines] (Nat.le_refl _)
          rw [hsuf]
          simp

/-- Temporary filenames, modelled as opaque identifiers. -/
abbrev MsfName := Nat

/-- A fault injected into one `mergeSimpleFiles` call: creating the output
temp file fails, opening input number `k` fails, the merge itself fails (a
read error on some input), or the final buffer flush fails.  `none` injects
no fault. -/
inductive MsfFault where
  | createOut
  | openIn (k : Nat)
  | readMerge
  | flushOut
deriving DecidableEq

/-- A cleanup action deferred by `mergeSimpleFiles`. -/
inductive MsfAct where
  | delFiles (ns : List MsfName)
  | delFile (n : MsfName)
  | closeFile (n : MsfName)
deriving DecidableEq

/-- The files deleted when a defer stack runs at function return (the head of
the list is the most recently deferred action, which Go runs first); closing
a file deletes nothing. -/
def runDefers : List MsfAct → List MsfName
  | [] => []
  | .delFiles ns :: rest => ns ++ runDefers rest
  | .delFile n :: rest => n :: runDefers rest
  | .closeFile _ :: rest => runDefers rest

/-- The observable outcome of one `mergeSimpleFiles` call. -/
structure MsfResult where
  /-- the files deleted by the call, in deletion order -/
  deleted : List MsfName
  /-- whether the output temp file was created -/
  outCreated : Bool
  /-- whether the call returned a `nil` error -/
  ok : Bool
deriving DecidableEq

/-- The name `ioutil.TempFile("", "filesort_merge_")` hands out in this model
(real temp names are fresh; callers of the lemmas below assume it differs
from the inputs). -/
def msfOutName : MsfName := 0

/-- Models `mergeSimpleFiles` as a file-system transaction, following the source
step by step with an explicit defer stack (head = most recently deferred,
run first): deletion of all inputs is deferred before anything else; then
the output temp file is created (fault `createOut` returns at the early
`return "", err`, before any further defer is registered); the output's
close is deferred; each successfully opened input defers its close (fault
`openIn k` makes the open loop break at input `k`); then the merge and the
flush run (faults `readMerge`, `flushOut`); finally, when `err != nil`,
deletion of the output file is deferred last, so it runs first. -/
def mergeSimpleFilesFx (names : List MsfName) (fault : Option MsfFault) : MsfResult :=
  let stack₀ : List MsfAct := [.delFiles names]
  match fault with
  | some .createOut =>
    { deleted := runDefers stack₀, outCreated := false, ok := false }
  | fault =>
    let stack₁ := MsfAct.closeFile msfOutName :: stack₀
    let firstFail : Option Nat :=
      match fault with
      | some (.openIn k) => if k < names.length then some k else none
      | _ => none
    let opened : List MsfName :=
      match firstFail with
      | some k => names.take k
      | none => names
    let stack₂ := (opened.map MsfAct.closeFile).reverse ++ stack₁
    let errAfterFlush : Bool :=
      match firstFail, fault with
      | some _, _ => true
      | none, some .readMerge => true
      | none, some .flushOut => true
      | _, _ => false
    let stack₃ := if errAfterFlush then MsfAct.delFile msfOutName :: stack₂ else stack₂
    { deleted := runDefers stack₃, outCreated := true, ok := !errAfterFlush }

theorem runDefers_closes (opened : List MsfName) (st : List MsfAct) :
    runDefers ((opened.map MsfAct.closeFile).reverse ++ st) = runDefers st := by
  induction opened using List.reverseRecOn with
  | nil => rfl
  | append_singleton ns n ih =>
    simp only [List.map_append, List.reverse_append, List.map_cons, List.map_nil,
      List.reverse_cons, List.reverse_nil, List.nil_append, List.cons_append]
    rw [runDefers]
    exact ih

theorem runDefers_ok_stack (opened names : List MsfName) :
    runDefers ((opened.map MsfAct.closeFile).reverse ++
      MsfAct.closeFile msfOutName :: [MsfAct.delFiles names]) = names := by
  rw [runDefers_closes]
  rw [runDefers, runDefers, runDefers]
  simp

theorem runDefers_err_stack (opened names : List MsfName) :
    runDefers (MsfAct.delFile msfOutName :: ((opened.map MsfAct.closeFile).reverse ++
      MsfAct.closeFile msfOutName :: [MsfAct.delFiles names])) =
      msfOutName :: names := by
  rw [runDefers, runDefers_closes]
  rw [runDefers, runDefers, runDefers]
  simp

/-- The exact deletion behavior of `mergeSimpleFiles`: a failing run deletes
the partially written output (when one was created at all) followed by all
the inputs; a successful run deletes exactly the inputs and keeps the
output. -/
theorem mergeSimpleFilesFx_deleted (names : List MsfName) (fault : Option MsfFault) :
    (mergeSimpleFilesFx names fault).deleted =
      (if (mergeSimpleFilesFx names fault).outCreated ∧
          (mergeSimpleFilesFx names fault).ok = false
        then [msfOutName] else []) ++ names ∧
    ((mergeSimpleFilesFx names fault).ok = true ↔
      (fault = none ∨ ∃ k, fault = some (.openIn k) ∧ names.length ≤ k)) := by
  cases fault with
  | none =>
    have hd : mergeSimpleFilesFx names none =
        { deleted := runDefers ((names.map MsfAct.closeFile).reverse ++
            MsfAct.closeFile msfOutName :: [MsfAct.delFiles names]),
          outCreated := true, ok := true } := rfl
    rw [hd, runDefers_ok_stack]
    simp
  | some f =>
    cases f with
    | createOut =>
      have hd : mergeSimpleFilesFx names (some .createOut) =
          { deleted := runDefers [MsfAct.delFiles names],
            outCreated := false, ok := false } := rfl
      rw [hd]
      constructor
      · simp [runDefers]
      · constructor
        · intro h; simp at h
        · rintro (h | ⟨k, hk, _⟩) <;> simp_all
    | openIn k =>
      by_cases hk : k < names.length
      · have hd : mergeSimpleFilesFx names (some (.openIn k)) =
            { deleted := runDefers (MsfAct.delFile msfOutName ::
                (((names.take k).map MsfAct.closeFile).reverse ++
                  MsfAct.closeFile msfOutName :: [MsfAct.delFiles names])),
              outCreated := true, ok := false } := by
          unfold mergeSimpleFilesFx
          simp only [if_pos hk]
          simp
        rw [hd, runDefers_err_stack]
        constructor
        · simp
        · constructor
          · intro h; simp at h
          · rintro (h | ⟨k', hk', hlen⟩)
            · cases h
            · injection hk' with hf
              injection hf with hkk
              subst hkk
              omega
      · have hd : mergeSimpleFilesFx names (some (.openIn k)) =
            { deleted := runDefers ((names.map MsfAct.closeFile).reverse ++
                MsfAct.closeFile msfOutName :: [MsfAct.delFiles names]),
              outCreated := true, ok := true } := by
          unfold mergeSimpleFilesFx
          simp only [if_neg hk]
          simp
        rw [hd, runDefers_ok_stack]
        constructor
        · simp
        · constructor
          · intro _
            exact Or.inr ⟨k, rfl, by omega⟩
          · intro _
            rfl
    | readMerge =>
      have hd : mergeSimpleFilesFx names (some .readMerge) =
          { deleted := runDefers (MsfAct.delFile msfOutName ::
              ((names.map MsfAct.closeFile).reverse ++
                MsfAct.closeFile msfOutName :: [MsfAct.delFiles names])),
            outCreated := true, ok := false } := rfl
      rw [hd, runDefers_err_stack]
      constructor
      · simp
      · constructor
        · intro h; simp at h
        · rintro (h | ⟨k', hk', _⟩) <;> simp_all
    | flushOut =>
      have hd : mergeSimpleFilesFx names (some .flushOut) =
          { deleted := runDefers (MsfAct.delFile msfOutName ::
              ((names.map MsfAct.closeFile).reverse ++
                MsfAct.closeFile msfOutName :: [MsfAct.delFiles names])),
            outCreated := true, ok := false } := rfl
      rw [hd, runDefers_err_stack]
      constructor
      · simp
      · constructor
        · intro h; simp at h
        · rintro (h | ⟨k', hk', _⟩) <;> simp_all

theorem readLines_cons_ok {r r' : Rdr} {line : Line} {ls : List Line} {r'' : Rdr}
    {res : PopRes} (m : Nat) (h : readStr r = (line, r', .ok))
    (hrl : readLines r' m = (ls, r'', res)) :
    readLines r (m + 1) = (line :: ls, r'', res) := by
  unfold readLines
  rw [h]
  simp only [hrl]

theorem readLines_succ_eof_frag {r r' : Rdr} {line : Line} (m : Nat)
    (h : readStr r = (line, r', .eof)) (hne : line ≠ []) (hg : line.getLast? ≠ some nl) :
    readLines r (m + 1) = ([line ++ [nl]], r', .eof) := by
  unfold readLines
  rw [h]
  simp [hne, hg]

theorem readLines_succ_eof_nil {r r' : Rdr} (m : Nat) (h : readStr r = ([], r', .eof)) :
    readLines r (m + 1) = ([], r', .eof) := by
  unfold readLines
  rw [h]
  simp

theorem readLines_nil_stream (n : Nat) : (readLines ⟨[], false⟩ n).1 = [] := by
  cases n with
  | zero => rfl
  | succ m =>
    rw [@readLines_succ_eof_nil ⟨[], false⟩ ⟨[], false⟩ m rfl]

/-- On the empty input `split` writes and returns exactly one empty chunk
file, reporting no error. -/
theorem split_empty_eq (limit : Nat) (hlim : 1 ≤ limit) :
    split ⟨[], false⟩ limit = ([[]], false) := by
  obtain ⟨pieces, hres, _, _, hemp, _⟩ :=
    splitLoop_spec limit hlim (⟨[], false⟩ : Rdr).bytes.length ⟨[], false⟩ (Nat.le_refl _) rfl []
  have hp : pieces = [[]] := (hemp rfl).1 rfl
  subst hp
  unfold split
  rw [hres]
  rfl

/-- A concrete evaluation: splitting the two-byte input "a\n" with chunk
limit 1 yields one chunk holding that line. -/
theorem split_single_a : split ⟨[97, 10], false⟩ 1 = ([[[97, 10]]], false) := by
  have h1 : readLines ⟨[97, 10], false⟩ 1 = ([[97, 10]], ⟨[], false⟩, .ok) := by decide
  have h2 : readLines ⟨[], false⟩ 1 = ([], ⟨[], false⟩, .eof) := by decide
  unfold split
  rw [splitLoop_step h1 (by decide) (by decide)]
  simp only [List.nil_append]
  rw [splitLoop_break h2 (by decide) (by decide)]
  rfl

/-- C1: For every finite input and positive chunk limit, the sort
(`sortLines`, and hence `sortLinesFile` and `sortLinesWrite`, whose
destination contents equal `sortLines`' output) succeeds for sufficient
fuel, and every successful output's multiset of non-empty
(terminator-normalized) lines equals that of the input, with the output's
line sequence non-decreasing under lexicographic byte order. -/
theorem claim_c1 (s : List Byte) (limit : Nat) (hlim : 1 ≤ limit) :
    (∃ fuel out, sortLinesM s limit fuel = .ok out) ∧
    (∀ fuel out, sortLinesM s limit fuel = .ok out →
      List.Perm (allLines out) (allLines s) ∧
      List.Sorted LeL (allLines out) ∧
      sortLinesFileM s limit fuel = .ok out ∧
      sortLinesWriteM s limit fuel = .ok out) := by
  refine ⟨sortLinesM_total s limit hlim, ?_⟩
  intro fuel out h
  obtain ⟨_, hsort, hperm, hall⟩ := sortLinesM_spec hlim h
  rw [hall]
  exact ⟨hperm, hsort, h, h⟩

theorem claim_c1_witness :
    (∃ fuel out, sortLinesM [98, 10, 97, 10] 1 fuel = .ok out) ∧
    (∀ fuel out, sortLinesM [98, 10, 97, 10] 1 fuel = .ok out →
      List.Perm (allLines out) (allLines [98, 10, 97, 10]) ∧
      List.Sorted LeL (allLines out) ∧
      sortLinesFileM [98, 10, 97, 10] 1 fuel = .ok out ∧
      sortLinesWriteM [98, 10, 97, 10] 1 fuel = .ok out) :=
  claim_c1 [98, 10, 97, 10] 1 (by decide)

/-- C2: The k-way merge first drops sources that are immediately exhausted
(`newSourceSet` keeps exactly the readers with at least one terminated
line); while the set is nonempty, `popMin` emits a minimal top (any minimal
member may be selected on ties), advances only that source, removes it on
end-of-stream and flags a read error; and `mergeSimple` aborts with an error
exactly when some input reader ends in a read error. -/
theorem claim_c2 :
    (∀ rs : List Rdr, (∀ r ∈ rs, r.errAtEnd = false) →
      (newSourceSet rs).2 = false ∧
      (newSourceSet rs).1.map srcLines =
        (rs.map (fun r => streamLines r.bytes)).filter (fun ls => !ls.isEmpty)) ∧
    (∀ (s : Src) (rest : List Src), ∃ m others,
      List.Perm (s :: rest) (m :: others) ∧
      (∀ u ∈ s :: rest, lineLt u.top m.top = false) ∧
      ((∃ t r', readStr m.r = (t, r', .ok) ∧
          popMin (s :: rest) = (m.top, ⟨t, r'⟩ :: others, false)) ∨
       (∃ t r', readStr m.r = (t, r', .eof) ∧
          popMin (s :: rest) = (m.top, others, false)) ∨
       (∃ t r', readStr m.r = (t, r', .ioerr) ∧
          popMin (s :: rest) = (m.top, ⟨t, r'⟩ :: others, true)))) ∧
    (∀ rs : List Rdr, (mergeSimple rs).2 = true ↔ ∃ r ∈ rs, r.errAtEnd = true) := by
  refine ⟨?_, popMin_spec, mergeSimple_err_iff⟩
  intro rs he
  obtain ⟨h1, h2, _⟩ := newSourceSet_spec rs he
  exact ⟨h1, h2⟩

theorem claim_c2_witness :
    ((newSourceSet [⟨[97, 10], false⟩, ⟨[], false⟩]).2 = false ∧
      (newSourceSet [⟨[97, 10], false⟩, ⟨[], false⟩]).1.map srcLines =
        (([⟨[97, 10], false⟩, ⟨[], false⟩] : List Rdr).map
          (fun r => streamLines r.bytes)).filter (fun ls => !ls.isEmpty)) ∧
    (∃ m others,
      List.Perm [(⟨[97, 10], ⟨[], false⟩⟩ : Src)] (m :: others) ∧
      (∀ u ∈ [(⟨[97, 10], ⟨[], false⟩⟩ : Src)], lineLt u.top m.top = false) ∧
      ((∃ t r', readStr m.r = (t, r', .ok) ∧
          popMin [(⟨[97, 10], ⟨[], false⟩⟩ : Src)] = (m.top, ⟨t, r'⟩ :: others, false)) ∨
       (∃ t r', readStr m.r = (t, r', .eof) ∧
          popMin [(⟨[97, 10], ⟨[], false⟩⟩ : Src)] = (m.top, others, false)) ∨
       (∃ t r', readStr m.r = (t, r', .ioerr) ∧
          popMin [(⟨[97, 10], ⟨[], false⟩⟩ : Src)] = (m.top, ⟨t, r'⟩ :: others, true)))) ∧
    (mergeSimple [⟨[], true⟩]).2 = true :=
  ⟨claim_c2.1 [⟨[97, 10], false⟩, ⟨[], false⟩] (by decide),
   claim_c2.2.1 ⟨[97, 10], ⟨[], false⟩⟩ [],
   (claim_c2.2.2 [⟨[], true⟩]).mpr ⟨⟨[], true⟩, by decide, rfl⟩⟩

/-- C3: For every `merge` run with positive limit (any fuel), every direct
k-way merge it performs receives at most `limit` filenames: every entry of
the trace of `mergeSimpleFiles` call sizes is at most `limit`, so no more
than `limit` input files are open simultaneously at any recursion level. -/
theorem claim_c3 (fuel : Nat) (names : List FileC) (limit : Nat) (hlim : 1 ≤ limit) :
    ∀ k ∈ (mergeC fuel names limit).2, k ≤ limit :=
  fun k hk => mergeC_trace fuel names limit k hk

theorem claim_c3_witness :
    (1 : Nat) ≤ 5 ∧ (2 : Nat) ∈ (mergeC 1 [[97, 10], [98, 10]] 5).2 ∧ (2 : Nat) ≤ 5 := by
  have hm : mergeC 1 [[97, 10], [98, 10]] 5 =
      (.ok (mergeSimpleFilesC [[97, 10], [98, 10]]), [2]) :=
    mergeC_direct 0 5 [97, 10] [98, 10] [] (by decide)
  refine ⟨by decide, ?_, ?_⟩
  · rw [hm]
    decide
  · exact claim_c3 1 [[97, 10], [98, 10]] 5 (by decide) 2 (by rw [hm]; decide)

/-- C4: For every nonempty filename list and fan-in limit at least 2 the
merge terminates (some fuel yields a result) and returns exactly one
filename; in particular the effective top-level limit is
`min(100, max(10, chunkLimit))`, which always lies in `[10, 100]`. -/
theorem claim_c4 :
    (∀ (names : List FileC) (limit : Nat), names ≠ [] → 2 ≤ limit →
      ∃ fuel out tr, mergeC fuel names limit = (.ok out, tr)) ∧
    (∀ chunkLimit : Nat, effLimit chunkLimit = goMin 100 (goMax 10 chunkLimit) ∧
      10 ≤ effLimit chunkLimit ∧ effLimit chunkLimit ≤ 100) := by
  constructor
  · intro names limit hne hlim
    exact mergeC_total names.length names limit (Nat.le_refl _) hne hlim
  · intro l
    exact ⟨rfl, (effLimit_bounds l).1, (effLimit_bounds l).2⟩

theorem claim_c4_witness :
    ([[97, 10]] : List FileC) ≠ [] ∧ (2 : Nat) ≤ 2 ∧
    (∃ fuel out tr, mergeC fuel [[97, 10]] 2 = (.ok out, tr)) ∧
    (10 ≤ effLimit 3 ∧ effLimit 3 ≤ 100) :=
  ⟨by decide, by decide, claim_c4.1 [[97, 10]] 2 (by decide) (by decide),
    ⟨(claim_c4.2 3).2.1, (claim_c4.2 3).2.2⟩⟩

/-- C5 counterexample: on the empty input `split` does not return zero chunk
filenames — the skip-trailing-empty-chunk guard requires an existing chunk,
so `split` writes and returns exactly one (empty) chunk file. -/
theorem claim_c5_counterexample : split ⟨[], false⟩ 3 = ([[]], false) := by
  have h3 : readLines ⟨[], false⟩ 3 = ([], ⟨[], false⟩, .eof) := by decide
  unfold split
  rw [splitLoop_empty h3 (by decide)]
  rfl

/-- C5 (amended): `split` yields, for the empty input, exactly one empty
chunk file (not zero chunk files) and no error; for every nonempty input it
never creates an empty chunk — in particular an input whose line count is an
exact multiple of `limit` gets no trailing empty chunk; and empty input
still yields empty output with no error. -/
theorem claim_c5 :
    (∀ limit : Nat, 1 ≤ limit → split ⟨[], false⟩ limit = ([[]], false)) ∧
    (∀ (s : List Byte) (limit : Nat), 1 ≤ limit → s ≠ [] →
      ∀ c ∈ (split ⟨s, false⟩ limit).1, c ≠ []) ∧
    (∀ limit fuel : Nat, 1 ≤ limit → sortLinesM [] limit (fuel + 1) = .ok []) := by
  refine ⟨split_empty_eq, ?_, fun limit fuel hlim => sortLinesM_nil limit fuel hlim⟩
  intro s limit hlim hs c hc
  obtain ⟨pieces, hres, _, hne, _, _⟩ :=
    splitLoop_spec limit hlim (⟨s, false⟩ : Rdr).bytes.length ⟨s, false⟩ (Nat.le_refl _) rfl []
  have hsplit : (split ⟨s, false⟩ limit).1 = pieces.map sortStrings := by
    unfold split
    rw [hres]
    rfl
  rw [hsplit] at hc
  rw [List.mem_map] at hc
  obtain ⟨p, hp, hpc⟩ := hc
  have hpne : p ≠ [] := hne hs p hp
  intro hcon
  rw [← hpc] at hcon
  have := (sortStrings_perm p).length_eq
  rw [hcon] at this
  simp only [List.length_nil] at this
  exact hpne (List.length_eq_zero.mp this.symm)

theorem claim_c5_witness :
    ((1 : Nat) ≤ 2 ∧ split ⟨[], false⟩ 2 = ([[]], false)) ∧
    (([97, 10, 98, 10] : List Byte) ≠ [] ∧
      ∀ c ∈ (split ⟨[97, 10, 98, 10], false⟩ 2).1, c ≠ []) ∧
    sortLinesM [] 2 1 = .ok [] :=
  ⟨⟨by decide, claim_c5.1 2 (by decide)⟩,
   ⟨by decide, claim_c5.2.1 [97, 10, 98, 10] 2 (by decide) (by decide)⟩,
   claim_c5.2.2 2 0 (by decide)⟩

/-- C6: `readLines` appends exactly one terminator to a final nonempty
unterminated line and passes every other line through with its existing
single terminator: on a stream made of terminated lines followed by a
nonempty terminator-free fragment it returns those lines with the fragment
normalized to `fragment ++ "\n"`, and on a fully terminated stream it
returns the lines unchanged. -/
theorem claim_c6 (ls : List Line) (frag : List Byte) (n : Nat)
    (hls : ∀ l ∈ ls, GoodLine l) (hfrag : nl ∉ frag) :
    (frag ≠ [] → ls.length < n →
      (readLines ⟨ls.flatten ++ frag, false⟩ n).1 = ls ++ [frag ++ [nl]]) ∧
    (ls.length ≤ n → (readLines ⟨ls.flatten, false⟩ n).1 = ls) := by
  induction ls generalizing n with
  | nil =>
    constructor
    · intro hne hn
      cases n with
      | zero => omega
      | succ m =>
        have hrs : readStr ⟨(([] : List Line).flatten : List Byte) ++ frag, false⟩ =
            (frag, ⟨[], false⟩, .eof) := by
          rw [show ((([] : List Line).flatten : List Byte) ++ frag = frag) from by simp]
          rw [readStr_eq_not_found (readString_no_nl hfrag)]
          rfl
        rw [readLines_succ_eof_frag m hrs hne
          (fun hg => hfrag (mem_of_getLast?_eq hg))]
        simp
    · intro _
      exact readLines_nil_stream n
  | cons l ls' ih =>
    have hl := hls l (List.mem_cons_self l ls')
    have hls' : ∀ x ∈ ls', GoodLine x := fun x hx => hls x (List.mem_cons_of_mem l hx)
    constructor
    · intro hne hn
      cases n with
      | zero => simp at hn
      | succ m =>
        have hrs : readStr ⟨((l :: ls').flatten : List Byte) ++ frag, false⟩ =
            (l, ⟨ls'.flatten ++ frag, false⟩, .ok) := by
          rw [show (((l :: ls').flatten : List Byte) ++ frag = l ++ (ls'.flatten ++ frag))
            from by simp]
          exact readStr_eq_found (readString_good hl (ls'.flatten ++ frag))
        cases hrl : readLines ⟨ls'.flatten ++ frag, false⟩ m with
        | mk lines rp =>
          cases rp with
          | mk r'' res =>
            rw [readLines_cons_ok m hrs hrl]
            have := (ih m hls').1 hne (by simp at hn; omega)
            rw [hrl] at this
            simp only at this
            rw [this]
            rfl
    · intro hn
      cases n with
      | zero => simp at hn
      | succ m =>
        have hrs : readStr ⟨((l :: ls').flatten : List Byte), false⟩ =
            (l, ⟨ls'.flatten, false⟩, .ok) := by
          rw [show (((l :: ls').flatten : List Byte) = l ++ ls'.flatten) from by simp]
          exact readStr_eq_found (readString_good hl ls'.flatten)
        cases hrl : readLines ⟨ls'.flatten, false⟩ m with
        | mk lines rp =>
          cases rp with
          | mk r'' res =>
            rw [readLines_cons_ok m hrs hrl]
            have := (ih m hls').2 (by simp at hn; omega)
            rw [hrl] at this
            simp only at this
            rw [this]

theorem claim_c6_witness :
    (∀ l ∈ [[97, 10]], GoodLine l) ∧ nl ∉ ([122, 122, 122] : List Byte) ∧
    (([122, 122, 122] : List Byte) ≠ [] ∧ ([[97, 10]] : List Line).length < 3 ∧
      (readLines ⟨([[97, 10]] : List Line).flatten ++ [122, 122, 122], false⟩ 3).1 =
        [[97, 10]] ++ [[122, 122, 122] ++ [nl]]) ∧
    (readLines ⟨([[97, 10]] : List Line).flatten, false⟩ 3).1 = [[97, 10]] := by
  have hls : ∀ l ∈ [[97, 10]], GoodLine l := by
    intro l hl
    rcases List.mem_singleton.mp hl with h
    subst h
    exact ⟨[97], rfl, by decide⟩
  have hfrag : nl ∉ ([122, 122, 122] : List Byte) := by decide
  have h := claim_c6 [[97, 10]] [122, 122, 122] 3 hls hfrag
  exact ⟨hls, hfrag, ⟨by decide, by decide, h.1 (by decide) (by decide)⟩, h.2 (by decide)⟩

/-- C7 counterexample: the input "zzz" is already sorted (it is a single
line), yet the sort's output is "zzz\n" — a trailing terminator is
synthesized — so sorting a sorted input is not byte-identical in general. -/
theorem claim_c7_counterexample :
    List.Sorted LeL (allLines [122, 122, 122]) ∧
    sortLinesM [122, 122, 122] 1 2 = .ok [122, 122, 122, 10] ∧
    ([122, 122, 122, 10] : List Byte) ≠ [122, 122, 122] := by
  refine ⟨?_, ?_, by decide⟩
  · have hall : allLines [122, 122, 122] = [[122, 122, 122, 10]] := by
      rw [allLines_not_found (readString_no_nl (by decide))]
      decide
    rw [hall]
    simp
  · have h1 : readLines ⟨[122, 122, 122], false⟩ 1 =
        ([[122, 122, 122, 10]], ⟨[], false⟩, .eof) := by decide
    have h2 : readLines ⟨[], false⟩ 1 = ([], ⟨[], false⟩, .eof) := by decide
    have hs : split ⟨[122, 122, 122], false⟩ 1 = ([[[122, 122, 122, 10]]], false) := by
      unfold split
      rw [splitLoop_step h1 (by decide) (by decide)]
      simp only [List.nil_append]
      rw [splitLoop_break h2 (by decide) (by decide)]
      rfl
    unfold sortLinesM
    rw [hs]
    simp only [List.map_cons, List.map_nil]
    rw [show (([[122, 122, 122, 10]] : List Line).flatten = [122, 122, 122, 10]) from rfl]
    rw [mergeC_single 1 (effLimit 1) [122, 122, 122, 10]]

/-- C7 (amended): sorting is byte-identical on already-sorted inputs that
are empty or newline-terminated (in particular on every output of the sort
itself, whose final line is always terminated); a sorted input whose last
line lacks the terminator is reproduced only up to the synthesized final
newline. -/
theorem claim_c7 (s : List Byte) (limit fuel : Nat) (out : FileC) (hlim : 1 ≤ limit)
    (hsorted : List.Sorted LeL (allLines s)) (hterm : s = [] ∨ s.getLast? = some nl)
    (h : sortLinesM s limit fuel = .ok out) : out = s := by
  obtain ⟨hg, hsort_out, hperm, _⟩ := sortLinesM_spec hlim h
  have heq : streamLines out = allLines s :=
    List.eq_of_perm_of_sorted hperm hsort_out hsorted
  rw [hg.flatten_streamLines, heq, flatten_allLines_of_terminated s hterm]

theorem claim_c7_witness :
    ((1 : Nat) ≤ 1 ∧ List.Sorted LeL (allLines [97, 10]) ∧
      (([97, 10] : List Byte) = [] ∨ ([97, 10] : List Byte).getLast? = some nl) ∧
      sortLinesM [97, 10] 1 1 = .ok [97, 10]) ∧
    ([97, 10] : FileC) = [97, 10] := by
  have hall : allLines [97, 10] = [[97, 10]] := by
    rw [@allLines_found [97, 10] [97, 10] [] (by decide), allLines_nil]
  have hsorted : List.Sorted LeL (allLines [97, 10]) := by
    rw [hall]
    simp
  have hok : sortLinesM [97, 10] 1 1 = .ok [97, 10] := by
    unfold sortLinesM
    rw [split_single_a]
    simp only [List.map_cons, List.map_nil]
    rw [show (([[97, 10]] : List Line).flatten = [97, 10]) from rfl]
    rw [mergeC_single 0 (effLimit 1) [97, 10]]
  exact ⟨⟨by decide, hsorted, by decide, hok⟩,
    claim_c7 [97, 10] 1 1 [97, 10] (by decide) hsorted (by decide) hok⟩

theorem mergeSimpleFilesFx_outCreated (names : List MsfName) (fault : Option MsfFault) :
    (mergeSimpleFilesFx names fault).outCreated = false ↔ fault = some .createOut := by
  cases fault with
  | none =>
    simp [show (mergeSimpleFilesFx names none).outCreated = true from rfl]
  | some f =>
    cases f with
    | createOut =>
      simp [show (mergeSimpleFilesFx names (some .createOut)).outCreated = false from rfl]
    | openIn k =>
      have h : (mergeSimpleFilesFx names (some (.openIn k))).outCreated = true := by
        unfold mergeSimpleFilesFx
        simp only
      simp [h]
    | readMerge =>
      simp [show (mergeSimpleFilesFx names (some .readMerge)).outCreated = true from rfl]
    | flushOut =>
      simp [show (mergeSimpleFilesFx names (some .flushOut)).outCreated = true from rfl]

/-- C8: whenever `mergeSimpleFiles` fails — creating the output, opening an
input, merging, or flushing — it still deletes all of its input files and
also deletes the partially written output file (when one was created at
all; a failure of the creation itself leaves no output to delete); on
success it deletes all inputs and keeps the completed output. -/
theorem claim_c8 (names : List MsfName) (fault : Option MsfFault)
    (hout : msfOutName ∉ names) :
    (∀ n ∈ names, n ∈ (mergeSimpleFilesFx names fault).deleted) ∧
    ((mergeSimpleFilesFx names fault).ok = false →
      (mergeSimpleFilesFx names fault).outCreated = true →
      (mergeSimpleFilesFx names fault).deleted = msfOutName :: names) ∧
    ((mergeSimpleFilesFx names fault).ok = true →
      (mergeSimpleFilesFx names fault).outCreated = true ∧
      msfOutName ∉ (mergeSimpleFilesFx names fault).deleted ∧
      (mergeSimpleFilesFx names fault).deleted = names) := by
  obtain ⟨hdel, hok⟩ := mergeSimpleFilesFx_deleted names fault
  refine ⟨?_, ?_, ?_⟩
  · intro n hn
    rw [hdel]
    exact List.mem_append.mpr (Or.inr hn)
  · intro hfail hcreated
    rw [hdel, if_pos ⟨hcreated, hfail⟩]
    rfl
  · intro hsucc
    have hcreated : (mergeSimpleFilesFx names fault).outCreated = true := by
      cases hoc : (mergeSimpleFilesFx names fault).outCreated with
      | true => rfl
      | false =>
        exfalso
        have := (mergeSimpleFilesFx_outCreated names fault).mp hoc
        subst this
        rcases hok.mp hsucc with h | ⟨k, hk, _⟩
        · cases h
        · cases hk
    have hdel' : (mergeSimpleFilesFx names fault).deleted = names := by
      rw [hdel, if_neg ?_]
      · rfl
      · rintro ⟨_, hfail⟩
        rw [hsucc] at hfail
        cases hfail
    exact ⟨hcreated, by rw [hdel']; exact hout, hdel'⟩

theorem claim_c8_witness :
    msfOutName ∉ ([1, 2] : List MsfName) ∧
    (∀ n ∈ ([1, 2] : List MsfName),
      n ∈ (mergeSimpleFilesFx [1, 2] (some .readMerge)).deleted) ∧
    ((mergeSimpleFilesFx [1, 2] (some .readMerge)).ok = false →
      (mergeSimpleFilesFx [1, 2] (some .readMerge)).outCreated = true →
      (mergeSimpleFilesFx [1, 2] (some .readMerge)).deleted = msfOutName :: [1, 2]) := by
  have h := claim_c8 [1, 2] (some .readMerge) (by decide)
  exact ⟨by decide, h.1, h.2.1⟩

/-- C9: whenever `split` returns without error it returns at least one
chunk filename; for the empty input it writes and returns exactly one empty
chunk file; hence the `panic("Empty names")` branch of `merge` is never
reached from `sortLines`. -/
theorem claim_c9 :
    (∀ (r : Rdr) (limit : Nat), (split r limit).2 = false → (split r limit).1 ≠ []) ∧
    (∀ limit : Nat, 1 ≤ limit → split ⟨[], false⟩ limit = ([[]], false)) ∧
    (∀ (s : List Byte) (limit fuel : Nat), 1 ≤ limit →
      sortLinesM s limit fuel ≠ .error .panicEmpty) := by
  refine ⟨split_ne_nil, split_empty_eq, ?_⟩
  intro s limit fuel hlim
  obtain ⟨_, _, _, hne⟩ := split_files_spec s limit hlim
  have hfne : (split ⟨s, false⟩ limit).1.map (fun c => c.flatten) ≠ [] := by
    intro hcon
    rw [List.map_eq_nil] at hcon
    exact hne hcon
  have hlim1 : 1 ≤ effLimit limit := by
    have := (effLimit_bounds limit).1
    omega
  have := mergeC_no_panic fuel ((split ⟨s, false⟩ limit).1.map (fun c => c.flatten))
    (effLimit limit) hlim1 hfne
  unfold sortLinesM
  exact this

theorem claim_c9_witness :
    ((split ⟨[97, 10], false⟩ 1).2 = false → (split ⟨[97, 10], false⟩ 1).1 ≠ []) ∧
    split ⟨[], false⟩ 1 = ([[]], false) ∧
    sortLinesM [97, 10] 1 0 ≠ .error .panicEmpty :=
  ⟨claim_c9.1 ⟨[97, 10], false⟩ 1,
   claim_c9.2.1 1 (by decide),
   claim_c9.2.2 [97, 10] 1 0 (by decide)⟩

/-- C10: `mergeSimple` is deterministic.  The executable loop realizes one
of the legal nondeterministic runs (`popMin` scans the map in an arbitrary
order), and although a tie between equal top lines may resolve to different
sources across runs, any two runs over the same sorted sources emit the
identical line sequence. -/
theorem claim_c10 :
    (∀ ss : List Src, (∀ s ∈ ss, s.r.errAtEnd = false) → MergeRun ss (mergeLoop ss).1) ∧
    (∀ (ss : List Src) (o1 o2 : List Line),
      (∀ s ∈ ss, List.Sorted LeL (srcLines s)) →
      MergeRun ss o1 → MergeRun ss o2 → o1 = o2) := by
  constructor
  · intro ss he
    exact (mergeLoop_run (srcMeasure ss) ss (Nat.le_refl _) he).2
  · intro ss o1 o2 hs h1 h2
    exact mergeRun_det hs h1 h2

theorem claim_c10_witness :
    (mergeLoop [⟨[97, 10], ⟨[], false⟩⟩, ⟨[97, 10], ⟨[], false⟩⟩]).1 =
      [[97, 10], [97, 10]] := by
  have hsorted : ∀ s ∈ [(⟨[97, 10], ⟨[], false⟩⟩ : Src), ⟨[97, 10], ⟨[], false⟩⟩],
      List.Sorted LeL (srcLines s) := by
    intro s hs
    rcases List.mem_cons.mp hs with h | h
    · subst h
      unfold srcLines
      rw [streamLines_nil]
      simp
    · rcases List.mem_singleton.mp h with h'
      subst h'
      unfold srcLines
      rw [streamLines_nil]
      simp
  have hrun1 := claim_c10.1 [⟨[97, 10], ⟨[], false⟩⟩, ⟨[97, 10], ⟨[], false⟩⟩] (by decide)
  have hrun2 : MergeRun [(⟨[97, 10], ⟨[], false⟩⟩ : Src), ⟨[97, 10], ⟨[], false⟩⟩]
      [[97, 10], [97, 10]] := by
    refine MergeRun.stepEof _ ⟨[97, 10], ⟨[], false⟩⟩ [⟨[97, 10], ⟨[], false⟩⟩]
      [] ⟨[], false⟩ [[97, 10]] (List.Perm.refl _) (by decide) rfl ?_
    refine MergeRun.stepEof _ ⟨[97, 10], ⟨[], false⟩⟩ [] [] ⟨[], false⟩ []
      (List.Perm.refl _) (by decide) rfl MergeRun.nil
  exact claim_c10.2 _ _ _ hsorted hrun1 hrun2

end Filesort
